import Mathlib

/-!
Verification development for the partitioned geo-spatial R-tree index
(`pkg/rtree/rtree.go`, `pkg/rtree/persistence.go`, `pkg/models/models.go`).

Shallow embedding conventions:
* `float64` coordinates are modelled as exact rationals (`ℚ`); every Go
  float value is a rational, and all index-side computations on coordinates
  are field operations and comparisons.
* The Haversine distance (`Distance`) uses transcendental functions, so it
  is modelled over `ℝ`; radius queries, whose pre-filter box has the real
  width `(radiusKm / earthRadius) * (180 / π)`, are likewise real-valued.
* The external spatial-tree primitive (`github.com/dhconnelly/rtreego`) is
  not part of this repository.  It is modelled from the spec's collaborator
  contract (§6) and error taxonomy (§7): a partition tree is the list of
  inserted items, `searchIntersect` filters by closed rectangle
  intersection, rectangle construction fails on non-positive side lengths
  (the spec's "degenerate rectangle" `ConstructionError`), and `kNearest`
  returns the `k` items closest by the primitive's own metric (minimum
  squared Euclidean distance in degree space from the query point to the
  item's stored rectangle), ties kept in insertion order.
* The goroutine fan-out/fan-in of the Go code is determinized: partition
  results are concatenated in ascending partition order.  All properties
  proved below are order-insensitive (permutations / sets / counts), so
  this does not affect any claim.
-/

/-- `models.Location`: a latitude/longitude pair (`models/models.go`). -/
structure Location where
  lat : ℚ
  lon : ℚ
deriving DecidableEq, Repr

/-- `models.Point`: an id plus an optional location (`*Location` in Go;
`none` models a nil pointer). -/
structure Point where
  id : String
  location : Option Location
deriving DecidableEq, Repr

/-- `models.BoundingBox`: a rectangle given by two corners. -/
structure BoundingBox where
  bottomLeft : Location
  topRight : Location
deriving DecidableEq, Repr

instance : Inhabited Location := ⟨⟨0, 0⟩⟩
instance : Inhabited BoundingBox := ⟨⟨⟨0, 0⟩, ⟨0, 0⟩⟩⟩

/-- `tolerance` constant from `rtree.go`. -/
def tolerance : ℚ := 1 / 100

/-- `earthRadius` constant from `rtree.go` (km). -/
def earthRadius : ℚ := 6371

/-- A 2-dimensional rectangle of the spatial-tree primitive, as the two
corner coordinates per dimension (dimension 0 is latitude, dimension 1 is
longitude, matching the `rtreego.Point{lat, lon}` order used throughout
`rtree.go`). -/
structure Rect where
  latMin : ℚ
  latMax : ℚ
  lonMin : ℚ
  lonMax : ℚ
deriving DecidableEq, Repr

/-- Modelled from the spec: `rtreego.Point.ToRect(tol)` of the external
spatial-tree primitive — the rectangle centered at the point with side
half-length `tol` in each dimension. -/
def toRect (loc : Location) : Rect :=
  ⟨loc.lat - tolerance, loc.lat + tolerance, loc.lon - tolerance, loc.lon + tolerance⟩

/-- Modelled from the spec: `rtreego.NewRect(bottomLeft, lengths)` of the
external primitive; construction fails on a non-positive side length (the
spec's "degenerate rectangle" `ConstructionError`, §7). -/
def newRect (lat lon latSize lonSize : ℚ) : Option Rect :=
  if latSize ≤ 0 ∨ lonSize ≤ 0 then none
  else some ⟨lat, lat + latSize, lon, lon + lonSize⟩

/-- Closed intersection test between two rectangles (the primitive's
`SearchIntersect` predicate). -/
def rectIntersects (r b : Rect) : Bool :=
  decide (r.latMin ≤ b.latMax ∧ b.latMin ≤ r.latMax ∧ r.lonMin ≤ b.lonMax ∧ b.lonMin ≤ r.lonMax)

/-- `spatialPoint`: a point wrapped with its bounding rectangle
(`rtree.go`, type `spatialPoint`). -/
structure SpatialPoint where
  point : Point
  rect : Rect
deriving DecidableEq, Repr

/-- Modelled from the spec: the primitive's `searchIntersecting` over a
tree holding the inserted items — the items whose rectangle intersects the
query rectangle. -/
def searchIntersect (tree : List SpatialPoint) (b : Rect) : List SpatialPoint :=
  tree.filter (fun sp => rectIntersects sp.rect b)

/-- `GeoIndex` (partitioned version, `rtree.go`): longitude-partitioned
trees, the partition bounds used for routing, and the atomic item count. -/
structure GeoIndex where
  partitions : List (List SpatialPoint)
  numCPU : ℕ
  partitionBounds : List BoundingBox
  itemCount : ℕ
deriving DecidableEq, Repr

/-- The bounds of partition `i` as computed in `NewGeoIndexWithWorkers`:
latitude spans the whole range, the longitude band is
`[-180 + i*(360/P), -180 + (i+1)*(360/P))`, and the last band's upper
bound is forced to `+180`. -/
def partitionBound (P i : ℕ) : BoundingBox :=
  let lonRange : ℚ := 360 / (P : ℚ)
  let minLon : ℚ := -180 + (i : ℚ) * lonRange
  let maxLon : ℚ := if i = P - 1 then 180 else minLon + lonRange
  ⟨⟨-90, minLon⟩, ⟨90, maxLon⟩⟩

/-- `NewGeoIndexWithWorkers(numPartitions)`: if the requested count is
non-positive the runtime CPU count (here the explicit parameter
`defaultCPU`, always at least 1 on a real machine) is used instead. -/
def newGeoIndexWithWorkers (numPartitions : ℤ) (defaultCPU : ℕ) : GeoIndex :=
  let P : ℕ := if numPartitions ≤ 0 then defaultCPU else numPartitions.toNat
  { partitions := List.replicate P []
    numCPU := P
    partitionBounds := (List.range P).map (partitionBound P)
    itemCount := 0 }

/-- Go's `int(x)` conversion of a non-negative-or-negative float:
truncation toward zero. -/
def goTrunc (q : ℚ) : ℤ :=
  if 0 ≤ q then ⌊q⌋ else ⌈q⌉

/-- The partition index assigned to a longitude in `IndexPoints`:
`int((lon + 180.0) / lonRange)` clamped into `[0, numCPU-1]` (first the
upper clamp, then the lower clamp, as in the source). -/
def assignIdx (P : ℕ) (lon : ℚ) : ℕ :=
  let lonRange : ℚ := 360 / (P : ℚ)
  let idx : ℤ := goTrunc ((lon + 180) / lonRange)
  let idx : ℤ := if (P : ℤ) ≤ idx then (P : ℤ) - 1 else idx
  let idx : ℤ := if idx < 0 then 0 else idx
  idx.toNat

/-- The bucket of partition `i` produced by the grouping phase of
`IndexPoints`: the located points of the batch assigned to partition `i`,
wrapped as spatial points, in batch order (the Go loop appends each point
to its partition's bucket in a single pass over the batch). -/
def bucketOf (P : ℕ) (pts : List Point) (i : ℕ) : List SpatialPoint :=
  pts.filterMap (fun p =>
    match p.location with
    | none => none
    | some loc => if assignIdx P loc.lon = i then some ⟨p, toRect loc⟩ else none)

/-- `IndexPoints`: early return on an empty batch; otherwise each bucket is
appended to its partition's tree and `itemCount` is overwritten with the
total number of inserted (located) points. -/
def indexPoints (g : GeoIndex) (pts : List Point) : GeoIndex :=
  if pts = [] then g
  else
    { g with
      partitions :=
        (List.range g.numCPU).map (fun i => g.partitions.getD i [] ++ bucketOf g.numCPU pts i)
      itemCount :=
        ((List.range g.numCPU).map (fun i => (bucketOf g.numCPU pts i).length)).sum }

/-- `Clear`: every partition tree is replaced by a fresh empty tree and the
count is reset. -/
def clearIndex (g : GeoIndex) : GeoIndex :=
  { g with partitions := List.replicate g.numCPU [], itemCount := 0 }

/-- `Count`: the stored atomic counter. -/
def countIndex (g : GeoIndex) : ℕ := g.itemCount

/-- `getRelevantPartitions`: the indices whose stored bounds satisfy
`box.BottomLeft.Lon <= bounds.TopRight.Lon && box.TopRight.Lon >= bounds.BottomLeft.Lon`. -/
def getRelevantPartitions (g : GeoIndex) (box : BoundingBox) : List ℕ :=
  (List.range g.partitionBounds.length).filter (fun i =>
    decide (box.bottomLeft.lon ≤ (g.partitionBounds.getD i default).topRight.lon ∧
      (g.partitionBounds.getD i default).bottomLeft.lon ≤ box.topRight.lon))

/-- The strict boundary check applied to each candidate in `QueryBox`
(skipping items with a nil location, as the source does). -/
def inBoxStrict (box : BoundingBox) (sp : SpatialPoint) : Option Point :=
  match sp.point.location with
  | none => none
  | some loc =>
      if box.bottomLeft.lat ≤ loc.lat ∧ loc.lat ≤ box.topRight.lat ∧
          box.bottomLeft.lon ≤ loc.lon ∧ loc.lon ≤ box.topRight.lon then
        some sp.point
      else none

/-- One partition's task in `QueryBox`: build the query rectangle (on
failure the goroutine sends `nil`, i.e. the partition contributes nothing
and the error is swallowed), search the partition tree, and apply the
strict boundary check. -/
def queryBoxPartition (box : BoundingBox) (tree : List SpatialPoint) : List Point :=
  match newRect box.bottomLeft.lat box.bottomLeft.lon
      (box.topRight.lat - box.bottomLeft.lat) (box.topRight.lon - box.bottomLeft.lon) with
  | none => []
  | some bounds => (searchIntersect tree bounds).filterMap (inBoxStrict box)

/-- `QueryBox`: fan out over the relevant partitions, merge the partial
results; the Go function's `error` result is the second component — it is
always `nil` (preserved here as `none`): no branch of the partitioned
implementation returns a non-nil error. -/
def queryBox (g : GeoIndex) (box : BoundingBox) : List Point × Option String :=
  ((getRelevantPartitions g box).flatMap
      (fun i => queryBoxPartition box (g.partitions.getD i [])), none)

/-- All spatial points stored in the index, partition by partition (the
loop order `0 .. numCPU-1` used by every fan-out in the source). -/
def storedSPs (g : GeoIndex) : List SpatialPoint :=
  (List.range g.numCPU).flatMap (fun i => g.partitions.getD i [])

/-- Go's `math.Atan2(y, x)`. -/
noncomputable def atan2 (y x : ℝ) : ℝ :=
  if 0 < x then Real.arctan (y / x)
  else if x = 0 then
    (if 0 < y then Real.pi / 2 else if y < 0 then -(Real.pi / 2) else 0)
  else if 0 ≤ y then Real.arctan (y / x) + Real.pi
  else Real.arctan (y / x) - Real.pi

/-- `Distance`: the Haversine great-circle distance of `rtree.go`, on the
sphere of radius `earthRadius` km; degree inputs (exact rationals, since
every float is rational), real output. -/
noncomputable def Distance (lat1 lon1 lat2 lon2 : ℚ) : ℝ :=
  let lat1Rad : ℝ := (lat1 : ℝ) * Real.pi / 180
  let lon1Rad : ℝ := (lon1 : ℝ) * Real.pi / 180
  let lat2Rad : ℝ := (lat2 : ℝ) * Real.pi / 180
  let lon2Rad : ℝ := (lon2 : ℝ) * Real.pi / 180
  let dLat : ℝ := lat2Rad - lat1Rad
  let dLon : ℝ := lon2Rad - lon1Rad
  let a : ℝ := Real.sin (dLat / 2) * Real.sin (dLat / 2) +
    Real.cos lat1Rad * Real.cos lat2Rad * Real.sin (dLon / 2) * Real.sin (dLon / 2)
  let c : ℝ := 2 * atan2 (Real.sqrt a) (Real.sqrt (1 - a))
  (earthRadius : ℝ) * c

/-- The approximate angular radius in degrees used by `QueryRadius`:
`(radiusKm / earthRadius) * (180 / math.Pi)`. -/
noncomputable def degOf (radiusKm : ℚ) : ℝ :=
  ((radiusKm : ℝ) / (earthRadius : ℝ)) * (180 / Real.pi)

/-- A real-valued rectangle: the radius pre-filter box has the irrational
corner offset `degOf r`. -/
structure RRect where
  latMin : ℝ
  latMax : ℝ
  lonMin : ℝ
  lonMax : ℝ

/-- Modelled from the spec: `rtreego.NewRect` at the real-valued arguments
`QueryRadius` passes it (same contract as `newRect`). -/
noncomputable def newRectR (lat lon latSize lonSize : ℝ) : Option RRect :=
  if latSize ≤ 0 ∨ lonSize ≤ 0 then none
  else some ⟨lat, lat + latSize, lon, lon + lonSize⟩

/-- Closed intersection between a stored (rational) rectangle and the real
query rectangle. -/
def rectIntersectsR (r : Rect) (b : RRect) : Prop :=
  (r.latMin : ℝ) ≤ b.latMax ∧ b.latMin ≤ (r.latMax : ℝ) ∧
    (r.lonMin : ℝ) ≤ b.lonMax ∧ b.lonMin ≤ (r.lonMax : ℝ)

open Classical in
/-- One partition's task in `QueryRadius`: build the pre-filter rectangle
(on failure the goroutine sends `nil`: nothing is contributed, the error is
swallowed), search the partition, then keep exactly the candidates whose
true Haversine distance from the center is at most the radius. -/
noncomputable def queryRadiusPartition (center : Location) (radiusKm : ℚ)
    (tree : List SpatialPoint) : List Point :=
  let deg := degOf radiusKm
  match newRectR ((center.lat : ℝ) - deg) ((center.lon : ℝ) - deg) (2 * deg) (2 * deg) with
  | none => []
  | some bounds =>
      (tree.filter (fun sp => decide (rectIntersectsR sp.rect bounds))).filterMap
        (fun sp =>
          match sp.point.location with
          | none => none
          | some loc =>
              if Distance center.lat center.lon loc.lat loc.lon ≤ (radiusKm : ℝ) then
                some sp.point
              else none)

open Classical in
/-- The routing of `QueryRadius`: `getRelevantPartitions` applied to the
(real-cornered) pre-filter box `center ± deg`. -/
noncomputable def getRelevantPartitionsR (g : GeoIndex) (blLon trLon : ℝ) : List ℕ :=
  (List.range g.partitionBounds.length).filter (fun i =>
    decide (blLon ≤ ((g.partitionBounds.getD i default).topRight.lon : ℝ) ∧
      ((g.partitionBounds.getD i default).bottomLeft.lon : ℝ) ≤ trLon))

/-- `QueryRadius`: fan out over the partitions relevant to the pre-filter
box and merge; like `QueryBox`, the returned error is always `nil`. -/
noncomputable def queryRadius (g : GeoIndex) (center : Location) (radiusKm : ℚ) :
    List Point × Option String :=
  let deg := degOf radiusKm
  ((getRelevantPartitionsR g ((center.lon : ℝ) - deg) ((center.lon : ℝ) + deg)).flatMap
      (fun i => queryRadiusPartition center radiusKm (g.partitions.getD i [])), none)

/-- Modelled from the spec: the primitive's "own distance metric" for
`kNearest` — squared Euclidean distance (in degree space) from the query
point to an item's stored rectangle. -/
def minDistSq (q : Location) (r : Rect) : ℚ :=
  (max 0 (max (r.latMin - q.lat) (q.lat - r.latMax)))^2 +
    (max 0 (max (r.lonMin - q.lon) (q.lon - r.lonMax)))^2

/-- Modelled from the spec: the primitive's `kNearest(k, queryPoint)` — the
`k` stored items closest by `minDistSq`, ties kept in insertion order; when
the tree holds fewer than `k` items, all of them. -/
def kNearest (tree : List SpatialPoint) (k : ℕ) (q : Location) : List SpatialPoint :=
  (List.insertionSort (fun a b => minDistSq q a.rect ≤ minDistSq q b.rect) tree).take k

/-- The unguarded location read of `NearestNeighbors`
(`sp.Point.Location.Lat` with no nil check).  The Go code would panic on a
nil location; the default is never reached on reachable indexes (theorem
for C9). -/
def locD (p : Point) : Location := p.location.getD default

/-- The `nearestResult` record of `NearestNeighbors`: a candidate point
with its exact Haversine distance from the query center. -/
structure Cand where
  point : Point
  distance : ℝ

open Classical in
/-- The inner pass of the exchange sort in `NearestNeighbors` (for a fixed
outer index `i`, scan `j > i` swapping whenever `a[i].distance >
a[j].distance`): carry the current slot value through the suffix, exchange
on each strictly smaller element; returns the settled slot value (the
minimum) and the rearranged suffix. -/
noncomputable def nnPass (x : Cand) : List Cand → Cand × List Cand
  | [] => (x, [])
  | y :: ys =>
      if y.distance < x.distance then
        ((nnPass y ys).1, x :: (nnPass y ys).2)
      else
        ((nnPass x ys).1, y :: (nnPass x ys).2)

theorem nnPass_length (x : Cand) (l : List Cand) : (nnPass x l).2.length = l.length := by
  induction l generalizing x with
  | nil => simp [nnPass]
  | cons y ys ih =>
      by_cases h : y.distance < x.distance <;> simp [nnPass, h, ih]

/-- The double loop `for i; for j > i; swap if a[i].distance > a[j].distance`
of `NearestNeighbors`, as the equivalent structural recursion: settle the
minimum into the front slot with `nnPass`, recurse on the rearranged rest. -/
noncomputable def selSort : List Cand → List Cand
  | [] => []
  | x :: xs => (nnPass x xs).1 :: selSort (nnPass x xs).2
termination_by l => l.length
decreasing_by simp [nnPass_length]

/-- The per-partition candidate collection of `NearestNeighbors`: each
partition contributes its `n*2` locally nearest items (the 2× over-fetch
heuristic), scored by exact Haversine distance. -/
noncomputable def knnCandidates (g : GeoIndex) (center : Location) (n : ℕ) : List Cand :=
  (List.range g.numCPU).flatMap (fun i =>
    (kNearest (g.partitions.getD i []) (n * 2) center).map (fun sp =>
      ⟨sp.point, Distance center.lat center.lon (locD sp.point).lat (locD sp.point).lon⟩))

/-- `NearestNeighbors`: collect all partitions' candidates, sort ascending
by distance with the exchange sort, return the first `min n (number of
candidates)` points. -/
noncomputable def nearestNeighbors (g : GeoIndex) (center : Location) (n : ℕ) : List Point :=
  let allResults := knnCandidates g center n
  let sorted := selSort allResults
  let resultCount := if allResults.length < n then allResults.length else n
  (sorted.take resultCount).map (fun c => c.point)

/-- The full-world extraction box of `SaveToFile` (`largeBounds`). -/
def largeBounds : BoundingBox := ⟨⟨-90, -180⟩, ⟨90, 180⟩⟩

/-- `IndexData`: the persisted envelope `{points, count}`
(`persistence.go`); the gob codec and file I/O are modelled as a faithful
envelope round trip (spec §6: binary envelope, no version field). -/
structure IndexData where
  points : List Point
  count : ℕ
deriving DecidableEq, Repr

/-- The data path of `SaveToFile`: extract every point with a full-world
`QueryBox`, wrap it with the current count. -/
def saveData (g : GeoIndex) : IndexData :=
  ⟨(queryBox g largeBounds).1, countIndex g⟩

/-- The data path of `LoadFromFile`: `Clear()` the destination index, then
rebuild it with `IndexPoints` on the decoded points. -/
def loadData (g : GeoIndex) (d : IndexData) : GeoIndex :=
  indexPoints (clearIndex g) d.points

/-- Per-item invariant of partition `i`: the stored item has a real
location, its rectangle is the tolerance rectangle of that location, and
its longitude lies inside partition `i`'s (closed) band. -/
def spOK (P i : ℕ) (sp : SpatialPoint) : Bool :=
  match sp.point.location with
  | none => false
  | some loc =>
      decide (sp.rect = toRect loc ∧
        (partitionBound P i).bottomLeft.lon ≤ loc.lon ∧
        loc.lon ≤ (partitionBound P i).topRight.lon)

/-- Structural well-formedness of an index: at least one partition, the
partition array and the routing bounds as built at construction, and every
stored item satisfying its partition's invariant. -/
def WellFormed (g : GeoIndex) : Prop :=
  1 ≤ g.numCPU ∧
  g.partitions.length = g.numCPU ∧
  g.partitionBounds = (List.range g.numCPU).map (partitionBound g.numCPU) ∧
  ∀ i ∈ List.range g.numCPU, ∀ sp ∈ g.partitions.getD i [], spOK g.numCPU i sp = true

instance : DecidablePred WellFormed := fun g => by
  unfold WellFormed; infer_instance

/-- The index states reachable from construction through the public
mutating operations (`IndexPoints` with located points inside the legal
longitude range, and `Clear`; queries and `SaveToFile` do not mutate, and
`LoadFromFile` is `Clear` followed by `IndexPoints`). -/
inductive Reachable : GeoIndex → Prop
  | fresh (numPartitions : ℤ) (defaultCPU : ℕ) (hd : 1 ≤ defaultCPU) :
      Reachable (newGeoIndexWithWorkers numPartitions defaultCPU)
  | index (g : GeoIndex) (pts : List Point) (hg : Reachable g)
      (hpts : ∀ p ∈ pts, ∀ loc, p.location = some loc → -180 ≤ loc.lon ∧ loc.lon ≤ 180) :
      Reachable (indexPoints g pts)
  | clear (g : GeoIndex) (hg : Reachable g) : Reachable (clearIndex g)

/-- A small example index used for concrete witnesses: one partition, one
point at the origin. -/
def originPoint : Point := ⟨"origin", some ⟨0, 0⟩⟩

def gEx : GeoIndex := indexPoints (newGeoIndexWithWorkers 1 1) [originPoint]

/-- The degenerate (zero-area) box at the origin. -/
def degBox : BoundingBox := ⟨⟨0, 0⟩, ⟨0, 0⟩⟩

theorem getD_map_range {α : Type _} (f : ℕ → α) (P i : ℕ) (d : α) (h : i < P) :
    ((List.range P).map f).getD i d = f i := by
  rw [List.getD_eq_getElem?_getD, List.getElem?_map, List.getElem?_range h]
  rfl

theorem flatMap_eq_nil_of {α β : Type _} (l : List α) (f : α → List β)
    (h : ∀ a ∈ l, f a = []) : l.flatMap f = [] := by
  induction l with
  | nil => rfl
  | cons a l ih =>
      rw [List.flatMap_cons, h a (by simp), List.nil_append]
      exact ih (fun x hx => h x (by simp [hx]))

theorem partitionBound_bl_lon (P i : ℕ) :
    (partitionBound P i).bottomLeft.lon = -180 + (i : ℚ) * (360 / (P : ℚ)) := rfl

theorem partitionBound_tr_lon (P i : ℕ) :
    (partitionBound P i).topRight.lon =
      if i = P - 1 then 180 else -180 + (i : ℚ) * (360 / (P : ℚ)) + 360 / (P : ℚ) := rfl

theorem lonRange_pos {P : ℕ} (hP : 1 ≤ P) : (0 : ℚ) < 360 / (P : ℚ) := by
  have : (0 : ℚ) < (P : ℚ) := by exact_mod_cast hP
  positivity

theorem partitionBound_tr_le_180 {P i : ℕ} (hP : 1 ≤ P) (hi : i < P) :
    (partitionBound P i).topRight.lon ≤ 180 := by
  rw [partitionBound_tr_lon]
  by_cases h : i = P - 1
  · simp [h]
  · rw [if_neg h]
    have hP' : (0 : ℚ) < (P : ℚ) := by exact_mod_cast hP
    have hi' : (i : ℚ) + 1 ≤ (P : ℚ) := by exact_mod_cast hi
    have hmul : ((i : ℚ) + 1) * (360 / (P : ℚ)) ≤ (P : ℚ) * (360 / (P : ℚ)) :=
      mul_le_mul_of_nonneg_right hi' (le_of_lt (lonRange_pos hP))
    have hcanc : (P : ℚ) * (360 / (P : ℚ)) = 360 := by
      field_simp
    nlinarith [hmul, hcanc]

theorem partitionBound_neg180_le_bl {P i : ℕ} (hP : 1 ≤ P) :
    (-180 : ℚ) ≤ (partitionBound P i).bottomLeft.lon := by
  rw [partitionBound_bl_lon]
  have h1 : (0 : ℚ) ≤ (i : ℚ) := by positivity
  nlinarith [mul_nonneg h1 (le_of_lt (lonRange_pos hP))]

theorem partitionBound_bl_le_tr {P i : ℕ} (hP : 1 ≤ P) (hi : i < P) :
    (partitionBound P i).bottomLeft.lon ≤ (partitionBound P i).topRight.lon := by
  by_cases h : i = P - 1
  · rw [partitionBound_tr_lon, if_pos h]
    calc (partitionBound P i).bottomLeft.lon
        ≤ (partitionBound P i).bottomLeft.lon + 360 / (P : ℚ) := by
          nlinarith [lonRange_pos hP]
      _ = (partitionBound P (i + 1)).bottomLeft.lon := by
          rw [partitionBound_bl_lon, partitionBound_bl_lon]
          push_cast
          ring
      _ ≤ 180 := by
          have hb := @partitionBound_neg180_le_bl P (i + 1) hP
          rw [partitionBound_bl_lon] at *
          have hi1 : (i : ℚ) + 1 ≤ (P : ℚ) := by
            have : i + 1 ≤ P := hi
            exact_mod_cast this
          have hmul : ((i : ℚ) + 1) * (360 / (P : ℚ)) ≤ (P : ℚ) * (360 / (P : ℚ)) :=
            mul_le_mul_of_nonneg_right hi1 (le_of_lt (lonRange_pos hP))
          have hP' : (0 : ℚ) < (P : ℚ) := by exact_mod_cast hP
          have hcanc : (P : ℚ) * (360 / (P : ℚ)) = 360 := by field_simp
          push_cast at hmul ⊢
          nlinarith
  · rw [partitionBound_tr_lon, if_neg h, partitionBound_bl_lon]
    nlinarith [lonRange_pos hP]

theorem queryBoxPartition_degenerate (box : BoundingBox) (tree : List SpatialPoint)
    (h : box.topRight.lat ≤ box.bottomLeft.lat ∨ box.topRight.lon ≤ box.bottomLeft.lon) :
    queryBoxPartition box tree = [] := by
  unfold queryBoxPartition newRect
  rw [if_pos]
  rcases h with h | h
  · exact Or.inl (by linarith)
  · exact Or.inr (by linarith)

theorem degOf_nonpos {r : ℚ} (hr : r ≤ 0) : degOf r ≤ 0 := by
  unfold degOf
  have h1 : ((r : ℝ)) / (earthRadius : ℝ) ≤ 0 := by
    apply div_nonpos_of_nonpos_of_nonneg
    · exact_mod_cast hr
    · norm_num [earthRadius]
  have h2 : (0 : ℝ) ≤ 180 / Real.pi := by positivity
  exact mul_nonpos_of_nonpos_of_nonneg h1 h2

theorem queryRadiusPartition_degenerate (c : Location) (r : ℚ) (tree : List SpatialPoint)
    (hr : r ≤ 0) : queryRadiusPartition c r tree = [] := by
  have hdeg : 2 * degOf r ≤ 0 := by nlinarith [degOf_nonpos hr]
  simp only [queryRadiusPartition, newRectR]
  rw [if_pos (Or.inl hdeg)]

/-- C6: the claim that malformed box/radius parameters make `QueryBox` /
`QueryRadius` return the construction error as their sole return error is
false on the partitioned implementation — the per-partition goroutine
swallows the rectangle-construction failure (`resultsChan <- nil`), so the
operation returns an empty result with a `nil` error.  Amended: for every
index, a degenerate box (or non-positive radius) yields the successful
result `([], nil)`; no construction error is ever propagated. -/
theorem C6_construction_errors_swallowed :
    (∀ (g : GeoIndex) (box : BoundingBox),
        box.topRight.lat ≤ box.bottomLeft.lat ∨ box.topRight.lon ≤ box.bottomLeft.lon →
        queryBox g box = ([], none)) ∧
    (∀ (g : GeoIndex) (c : Location) (r : ℚ), r ≤ 0 →
        queryRadius g c r = ([], none)) := by
  constructor
  · intro g box h
    unfold queryBox
    rw [flatMap_eq_nil_of _ _ (fun i _ => queryBoxPartition_degenerate box _ h)]
  · intro g c r hr
    simp only [queryRadius]
    rw [flatMap_eq_nil_of _ _ (fun i _ => queryRadiusPartition_degenerate c r _ hr)]

/-- C6 witness: the theorem applied at a concrete degenerate box and a
concrete zero radius on the one-point example index. -/
theorem C6_witness :
    ((degBox.topRight.lat ≤ degBox.bottomLeft.lat ∨
        degBox.topRight.lon ≤ degBox.bottomLeft.lon) ∧
      queryBox gEx degBox = ([], none)) ∧
    ((0 : ℚ) ≤ 0 ∧ queryRadius gEx ⟨0, 0⟩ 0 = ([], none)) :=
  ⟨⟨Or.inl (by decide), C6_construction_errors_swallowed.1 gEx degBox (Or.inl (by decide))⟩,
    ⟨le_refl 0, C6_construction_errors_swallowed.2 gEx ⟨0, 0⟩ 0 (le_refl 0)⟩⟩

/-- C6 counterexample: at the degenerate box at the origin — whose
rectangle construction fails (`newRect … = none`) — `QueryBox` on the
one-point example index returns the successful empty result with a `nil`
error instead of the construction error the claim requires. -/
theorem C6_cex :
    newRect 0 0 0 0 = none ∧ queryBox gEx degBox = ([], none) := by
  constructor
  · simp [newRect]
  · unfold queryBox
    rw [flatMap_eq_nil_of _ _
      (fun i _ => queryBoxPartition_degenerate degBox _ (Or.inl (by norm_num [degBox])))]

theorem getD_replicate_nil {α : Type _} (P i : ℕ) :
    (List.replicate P ([] : List α)).getD i [] = [] := by
  rw [List.getD_eq_getElem?_getD]
  rcases Nat.lt_or_ge i P with h | h
  · rw [List.getElem?_replicate, if_pos h]
    rfl
  · rw [List.getElem?_eq_none (by simpa using h)]
    rfl

theorem wellFormed_new (n : ℤ) (d : ℕ) (hd : 1 ≤ d) :
    WellFormed (newGeoIndexWithWorkers n d) := by
  refine ⟨?_, by simp [newGeoIndexWithWorkers], by simp [newGeoIndexWithWorkers], ?_⟩
  · by_cases h : n ≤ 0
    · simpa [newGeoIndexWithWorkers, h] using hd
    · have : (1 : ℤ) ≤ n := by omega
      simp only [newGeoIndexWithWorkers, if_neg h]
      omega
  · intro i _ sp hsp
    rw [show (newGeoIndexWithWorkers n d).partitions = List.replicate _ [] from rfl,
      getD_replicate_nil] at hsp
    exact absurd hsp (List.not_mem_nil sp)

theorem mem_getRelevantPartitions {g : GeoIndex} (hg : WellFormed g) (box : BoundingBox)
    (i : ℕ) :
    i ∈ getRelevantPartitions g box ↔
      i < g.numCPU ∧ box.bottomLeft.lon ≤ (partitionBound g.numCPU i).topRight.lon ∧
        (partitionBound g.numCPU i).bottomLeft.lon ≤ box.topRight.lon := by
  obtain ⟨hP, hlen, hbounds, hsp⟩ := hg
  unfold getRelevantPartitions
  rw [hbounds, List.length_map, List.length_range]
  simp only [List.mem_filter, List.mem_range, decide_eq_true_eq]
  constructor
  · rintro ⟨hi, h1, h2⟩
    rw [getD_map_range _ _ _ _ hi] at h1 h2
    exact ⟨hi, h1, h2⟩
  · rintro ⟨hi, h1, h2⟩
    refine ⟨hi, ?_⟩
    rw [getD_map_range _ _ _ _ hi]
    exact ⟨h1, h2⟩

/-- C7 (amended): the router selects partition `i` iff `i` is a real
partition index and the partition's **closed** longitude band
`[lonMin, lonMax]` (as stored in `partitionBounds`) intersects the box's
closed longitude span — the source compares with `<=` on both stored
bounds, not against the half-open band of the claim. -/
theorem C7_routing_closed_overlap {g : GeoIndex} (hg : WellFormed g) (box : BoundingBox)
    (hbox : box.bottomLeft.lon ≤ box.topRight.lon) (i : ℕ) :
    i ∈ getRelevantPartitions g box ↔
      (i < g.numCPU ∧ ∃ x : ℚ,
        (partitionBound g.numCPU i).bottomLeft.lon ≤ x ∧
        x ≤ (partitionBound g.numCPU i).topRight.lon ∧
        box.bottomLeft.lon ≤ x ∧ x ≤ box.topRight.lon) := by
  rw [mem_getRelevantPartitions hg]
  constructor
  · rintro ⟨hi, h1, h2⟩
    exact ⟨hi, max (partitionBound g.numCPU i).bottomLeft.lon box.bottomLeft.lon,
      le_max_left _ _, max_le (partitionBound_bl_le_tr hg.1 hi) h1,
      le_max_right _ _, max_le h2 hbox⟩
  · rintro ⟨hi, x, hx1, hx2, hx3, hx4⟩
    exact ⟨hi, le_trans hx3 hx2, le_trans hx1 hx4⟩

/-- C7 witness: the amended equivalence applied at a concrete
two-partition index, the box with longitude span `[0, 10]`, and partition
index `0`, with every hypothesis discharged concretely. -/
theorem C7_witness :
    WellFormed (newGeoIndexWithWorkers 2 1) ∧
    ((⟨⟨0, 0⟩, ⟨0, 10⟩⟩ : BoundingBox).bottomLeft.lon ≤
      (⟨⟨0, 0⟩, ⟨0, 10⟩⟩ : BoundingBox).topRight.lon) ∧
    (0 ∈ getRelevantPartitions (newGeoIndexWithWorkers 2 1) ⟨⟨0, 0⟩, ⟨0, 10⟩⟩ ↔
      (0 < (newGeoIndexWithWorkers 2 1).numCPU ∧ ∃ x : ℚ,
        (partitionBound (newGeoIndexWithWorkers 2 1).numCPU 0).bottomLeft.lon ≤ x ∧
        x ≤ (partitionBound (newGeoIndexWithWorkers 2 1).numCPU 0).topRight.lon ∧
        (⟨⟨0, 0⟩, ⟨0, 10⟩⟩ : BoundingBox).bottomLeft.lon ≤ x ∧
        x ≤ (⟨⟨0, 0⟩, ⟨0, 10⟩⟩ : BoundingBox).topRight.lon)) :=
  ⟨wellFormed_new 2 1 (le_refl 1), by norm_num,
    C7_routing_closed_overlap (wellFormed_new 2 1 (le_refl 1)) ⟨⟨0, 0⟩, ⟨0, 10⟩⟩
      (by norm_num) 0⟩

/-- C7 counterexample: with two partitions, the box whose longitude span is
`[0, 10]` selects partition `0` even though partition `0`'s half-open band
`[-180, 0)` has empty intersection with `[0, 10]` — refuting the claimed
half-open-band characterization. -/
theorem C7_cex :
    0 ∈ getRelevantPartitions (newGeoIndexWithWorkers 2 1) ⟨⟨0, 0⟩, ⟨0, 10⟩⟩ ∧
    ¬ ∃ x : ℚ, (partitionBound 2 0).bottomLeft.lon ≤ x ∧
        x < (partitionBound 2 0).topRight.lon ∧ (0 : ℚ) ≤ x ∧ x ≤ 10 := by
  constructor
  · refine (mem_getRelevantPartitions (wellFormed_new 2 1 (le_refl 1)) _ 0).mpr ?_
    refine ⟨by norm_num [newGeoIndexWithWorkers], ?_, ?_⟩ <;>
      norm_num [newGeoIndexWithWorkers, partitionBound_bl_lon, partitionBound_tr_lon,
        show Int.toNat 2 = 2 from rfl]
  · rintro ⟨x, h1, h2, h3, h4⟩
    rw [partitionBound_tr_lon] at h2
    norm_num at h2
    linarith

theorem assignIdx_lt {P : ℕ} (hP : 1 ≤ P) (lon : ℚ) : assignIdx P lon < P := by
  simp only [assignIdx]
  split_ifs <;> omega

theorem sum_map_range {M : Type _} [AddCommMonoid M] (f : ℕ → M) (P : ℕ) :
    ((List.range P).map f).sum = ∑ i ∈ Finset.range P, f i := by
  induction P with
  | zero => simp
  | succ n ih =>
      rw [List.range_succ, List.map_append, List.sum_append, Finset.sum_range_succ, ih]
      simp

theorem flatMap_congr {α β : Type _} {l : List α} {f g : α → List β}
    (h : ∀ a ∈ l, f a = g a) : l.flatMap f = l.flatMap g := by
  induction l with
  | nil => rfl
  | cons a l ih =>
      rw [List.flatMap_cons, List.flatMap_cons, h a (by simp),
        ih (fun x hx => h x (by simp [hx]))]

theorem bucketOf_nil (P i : ℕ) : bucketOf P [] i = [] := rfl

theorem sum_bucket_lengths {P : ℕ} (hP : 1 ≤ P) (pts : List Point) :
    ∑ i ∈ Finset.range P, (bucketOf P pts i).length =
      (pts.filter (fun p => p.location.isSome)).length := by
  induction pts with
  | nil => simp [bucketOf]
  | cons p pts ih =>
      rcases hloc : p.location with _ | loc
      · have hstep : ∀ i, bucketOf P (p :: pts) i = bucketOf P pts i := by
          intro i
          simp only [bucketOf, List.filterMap_cons, hloc]
        rw [Finset.sum_congr rfl (fun i _ => by rw [hstep i]), ih, List.filter_cons,
          if_neg (by simp [hloc])]
      · have hass := assignIdx_lt hP loc.lon
        have hstep : ∀ i, (bucketOf P (p :: pts) i).length =
            (if i = assignIdx P loc.lon then 1 else 0) + (bucketOf P pts i).length := by
          intro i
          simp only [bucketOf, List.filterMap_cons, hloc]
          rcases eq_or_ne (assignIdx P loc.lon) i with he | hne
          · rw [if_pos he, if_pos he.symm, List.length_cons]
            omega
          · rw [if_neg hne, if_neg (Ne.symm hne)]
            simp
        rw [Finset.sum_congr rfl (fun i _ => hstep i), Finset.sum_add_distrib,
          Finset.sum_ite_eq' (Finset.range P) (assignIdx P loc.lon) (fun _ => 1),
          if_pos (Finset.mem_range.mpr hass), ih, List.filter_cons,
          if_pos (by simp [hloc]), List.length_cons]
        omega

theorem storedSPs_indexPoints (g : GeoIndex) (pts : List Point) :
    storedSPs (indexPoints g pts) =
      (List.range g.numCPU).flatMap
        (fun i => g.partitions.getD i [] ++ bucketOf g.numCPU pts i) := by
  by_cases h : pts = []
  · subst h
    rw [indexPoints, if_pos rfl]
    unfold storedSPs
    exact flatMap_congr (fun i _ => by rw [bucketOf_nil, List.append_nil])
  · rw [indexPoints, if_neg h]
    unfold storedSPs
    exact flatMap_congr (fun i hi => by
      rw [getD_map_range _ _ _ _ (List.mem_range.mp hi)])

theorem length_storedSPs (g : GeoIndex) :
    (storedSPs g).length = ∑ i ∈ Finset.range g.numCPU, (g.partitions.getD i []).length := by
  unfold storedSPs
  rw [List.length_flatMap, sum_map_range]
  rfl

theorem itemCount_indexPoints {g : GeoIndex} (hP : 1 ≤ g.numCPU) (pts : List Point)
    (hne : pts ≠ []) :
    (indexPoints g pts).itemCount = (pts.filter (fun p => p.location.isSome)).length := by
  rw [indexPoints, if_neg hne]
  show ((List.range g.numCPU).map (fun i => (bucketOf g.numCPU pts i).length)).sum = _
  rw [sum_map_range, sum_bucket_lengths hP]

/-- C5 (amended): on a freshly constructed index, `Count()` after
`IndexPoints(B)` equals the number of located points of `B` — and the same
holds after any **non-empty** batch on any well-formed index (the count is
overwritten, not accumulated), while the partition contents do grow by the
batch on every call (so a repeated batch is stored twice without a matching
count increase).  The claim's "after every completed IndexPoints call"
fails only for an empty batch, which returns early without storing the
count (see the counterexample). -/
theorem C5_count_semantics :
    (∀ (P : ℤ) (d : ℕ), 1 ≤ d → ∀ pts : List Point,
      countIndex (indexPoints (newGeoIndexWithWorkers P d) pts) =
        (pts.filter (fun p => p.location.isSome)).length) ∧
    (∀ g : GeoIndex, 1 ≤ g.numCPU → ∀ pts : List Point, pts ≠ [] →
      countIndex (indexPoints g pts) =
        (pts.filter (fun p => p.location.isSome)).length) ∧
    (∀ g : GeoIndex, 1 ≤ g.numCPU → ∀ pts : List Point,
      (storedSPs (indexPoints g pts)).length =
        (storedSPs g).length + (pts.filter (fun p => p.location.isSome)).length) := by
  have key : ∀ g : GeoIndex, 1 ≤ g.numCPU → ∀ pts : List Point, pts ≠ [] →
      countIndex (indexPoints g pts) =
        (pts.filter (fun p => p.location.isSome)).length := by
    intro g hP pts hne
    exact itemCount_indexPoints hP pts hne
  refine ⟨?_, key, ?_⟩
  · intro P d hd pts
    by_cases h : pts = []
    · subst h
      rw [indexPoints, if_pos rfl]
      rfl
    · exact key _ (wellFormed_new P d hd).1 pts h
  · intro g hP pts
    rw [storedSPs_indexPoints, List.length_flatMap, sum_map_range]
    have hsplit : ∀ i, (List.length ∘ fun i =>
        g.partitions.getD i [] ++ bucketOf g.numCPU pts i) i =
        (g.partitions.getD i []).length + (bucketOf g.numCPU pts i).length := by
      intro i
      simp
    rw [Finset.sum_congr rfl (fun i _ => hsplit i), Finset.sum_add_distrib,
      sum_bucket_lengths hP, length_storedSPs]

/-- C5 witness: the count law applied at the one-point example batch on a
fresh one-partition index, and the growth law at the same index. -/
theorem C5_witness :
    ((1 : ℕ) ≤ 1 ∧
      countIndex (indexPoints (newGeoIndexWithWorkers 1 1) [originPoint]) =
        (([originPoint] : List Point).filter (fun p => p.location.isSome)).length) ∧
    (gEx.numCPU ≥ 1 ∧ ([originPoint] : List Point) ≠ [] ∧
      countIndex (indexPoints gEx [originPoint]) =
        (([originPoint] : List Point).filter (fun p => p.location.isSome)).length) :=
  ⟨⟨le_refl 1, C5_count_semantics.1 1 1 (le_refl 1) [originPoint]⟩,
    ⟨(wellFormed_new 1 1 (le_refl 1)).1, by simp,
      C5_count_semantics.2.1 gEx (wellFormed_new 1 1 (le_refl 1)).1 [originPoint] (by simp)⟩⟩

/-- C5 counterexample: after indexing one located point and then calling
`IndexPoints` with the empty batch — a call that completes successfully —
`Count()` is still `1`, not the `0` located points of the most recent
batch: the early return skips the count store, refuting the claim's "after
every completed IndexPoints call" clause. -/
theorem C5_cex :
    countIndex (indexPoints gEx []) = 1 ∧
    (([] : List Point).filter (fun p => p.location.isSome)).length = 0 := by
  refine ⟨?_, rfl⟩
  have h1 : indexPoints gEx [] = gEx := by rw [indexPoints, if_pos rfl]
  rw [h1]
  show (indexPoints (newGeoIndexWithWorkers 1 1) [originPoint]).itemCount = 1
  rw [itemCount_indexPoints (wellFormed_new 1 1 (le_refl 1)).1 [originPoint] (by simp)]
  simp [originPoint]

theorem indexPoints_numCPU (g : GeoIndex) (pts : List Point) :
    (indexPoints g pts).numCPU = g.numCPU := by
  rw [indexPoints]; split <;> rfl

theorem indexPoints_partitionBounds (g : GeoIndex) (pts : List Point) :
    (indexPoints g pts).partitionBounds = g.partitionBounds := by
  rw [indexPoints]; split <;> rfl

theorem indexPoints_itemCount_eq (g : GeoIndex) (pts : List Point) (h : pts ≠ []) :
    (indexPoints g pts).itemCount =
      ((List.range g.numCPU).map (fun i => (bucketOf g.numCPU pts i).length)).sum := by
  rw [indexPoints, if_neg h]

theorem reachable_shape {g : GeoIndex} (hr : Reachable g) :
    1 ≤ g.numCPU ∧
      g.partitionBounds = (List.range g.numCPU).map (partitionBound g.numCPU) := by
  induction hr with
  | fresh n d hd => exact ⟨(wellFormed_new n d hd).1, (wellFormed_new n d hd).2.2.1⟩
  | index g pts hg hpts ih =>
      rw [indexPoints_numCPU, indexPoints_partitionBounds]
      exact ih
  | clear g hg ih => exact ih

/-- Half-open-except-last band membership: partition `i`'s longitude band
contains `lon` (the last band is closed at `+180`). -/
def inBand (P i : ℕ) (lon : ℚ) : Prop :=
  (partitionBound P i).bottomLeft.lon ≤ lon ∧
    (if i = P - 1 then lon ≤ (partitionBound P i).topRight.lon
     else lon < (partitionBound P i).topRight.lon)

theorem band_disjoint {P : ℕ} (hP : 1 ≤ P) {i j : ℕ} (hij : i < j) (hj : j < P) (lon : ℚ)
    (hi_band : inBand P i lon) (hj_band : inBand P j lon) : False := by
  have hiP : i ≠ P - 1 := by omega
  have hlt : lon < (partitionBound P i).topRight.lon := by
    have := hi_band.2
    rwa [if_neg hiP] at this
  rw [partitionBound_tr_lon, if_neg hiP] at hlt
  have hge : (partitionBound P j).bottomLeft.lon ≤ lon := hj_band.1
  rw [partitionBound_bl_lon] at hge
  have hij' : (i : ℚ) + 1 ≤ (j : ℚ) := by exact_mod_cast hij
  have hW := le_of_lt (lonRange_pos hP)
  nlinarith [mul_le_mul_of_nonneg_right hij' hW]


theorem band_cover {P : ℕ} (hP : 1 ≤ P) (lon : ℚ) (h1 : -180 ≤ lon) (h2 : lon ≤ 180) :
    ∃! i, i < P ∧ inBand P i lon := by
  have hW : (0 : ℚ) < 360 / (P : ℚ) := lonRange_pos hP
  have hE0 : 0 ≤ (lon + 180) / (360 / (P : ℚ)) := div_nonneg (by linarith) (le_of_lt hW)
  have hfl0 : 0 ≤ ⌊(lon + 180) / (360 / (P : ℚ))⌋ := Int.floor_nonneg.mpr hE0
  have huniq : ∀ y₁ y₂ : ℕ, (y₁ < P ∧ inBand P y₁ lon) → (y₂ < P ∧ inBand P y₂ lon) →
      y₁ = y₂ := by
    intro y₁ y₂ hy₁ hy₂
    rcases Nat.lt_trichotomy y₁ y₂ with h | h | h
    · exact absurd (band_disjoint hP h hy₂.1 lon hy₁.2 hy₂.2) id
    · exact h
    · exact absurd (band_disjoint hP h hy₁.1 lon hy₂.2 hy₁.2) id
  have hlast : ∀ j : ℕ, j = P - 1 → ((j : ℚ)) * (360 / (P : ℚ)) ≤ lon + 180 →
      inBand P j lon := by
    intro j hj hle
    constructor
    · rw [partitionBound_bl_lon]
      linarith
    · rw [if_pos hj, partitionBound_tr_lon, if_pos hj]
      exact h2
  have hmid : ∀ j : ℕ, j ≠ P - 1 → ((j : ℚ)) * (360 / (P : ℚ)) ≤ lon + 180 →
      lon + 180 < ((j : ℚ) + 1) * (360 / (P : ℚ)) → inBand P j lon := by
    intro j hj hle hlt
    constructor
    · rw [partitionBound_bl_lon]
      linarith
    · rw [if_neg hj, partitionBound_tr_lon, if_neg hj]
      nlinarith
  rcases le_or_lt ((P : ℤ) - 1) ⌊(lon + 180) / (360 / (P : ℚ))⌋ with hcase | hcase
  · have hle : ((P : ℚ) - 1) ≤ (lon + 180) / (360 / (P : ℚ)) := by
      have h := Int.le_floor.mp hcase
      push_cast at h
      exact h
    have hle' : ((P : ℚ) - 1) * (360 / (P : ℚ)) ≤ lon + 180 := (le_div_iff₀ hW).mp hle
    have hcast : ((P - 1 : ℕ) : ℚ) = (P : ℚ) - 1 := by
      push_cast [hP]
      ring
    have hband : inBand P (P - 1) lon := hlast (P - 1) rfl (by rw [hcast]; exact hle')
    exact ⟨P - 1, ⟨by omega, hband⟩, fun y hy => huniq y (P - 1) hy ⟨by omega, hband⟩⟩
  · have hjz : ((⌊(lon + 180) / (360 / (P : ℚ))⌋.toNat : ℤ)) =
        ⌊(lon + 180) / (360 / (P : ℚ))⌋ := Int.toNat_of_nonneg hfl0
    have hjne : ⌊(lon + 180) / (360 / (P : ℚ))⌋.toNat ≠ P - 1 := by omega
    have hjlt : ⌊(lon + 180) / (360 / (P : ℚ))⌋.toNat < P := by omega
    have hfle : ((⌊(lon + 180) / (360 / (P : ℚ))⌋.toNat : ℚ)) ≤
        (lon + 180) / (360 / (P : ℚ)) := by
      have h := Int.floor_le ((lon + 180) / (360 / (P : ℚ)))
      rw [← hjz] at h
      exact_mod_cast h
    have hflt : (lon + 180) / (360 / (P : ℚ)) <
        (⌊(lon + 180) / (360 / (P : ℚ))⌋.toNat : ℚ) + 1 := by
      have h := Int.lt_floor_add_one ((lon + 180) / (360 / (P : ℚ)))
      rw [← hjz] at h
      exact_mod_cast h
    have hband := hmid _ hjne ((le_div_iff₀ hW).mp hfle) ((div_lt_iff₀ hW).mp hflt)
    exact ⟨_, ⟨hjlt, hband⟩, fun y hy => huniq y _ hy ⟨hjlt, hband⟩⟩

/-- The full band-structure property of C8, at one index state. -/
def BandStructure (g : GeoIndex) : Prop :=
  g.partitionBounds.length = g.numCPU ∧
  1 ≤ g.numCPU ∧
  g.partitionBounds = (List.range g.numCPU).map (partitionBound g.numCPU) ∧
  (∀ i, i + 1 < g.numCPU →
    (partitionBound g.numCPU i).topRight.lon =
      (partitionBound g.numCPU (i + 1)).bottomLeft.lon) ∧
  (∀ i, i + 1 < g.numCPU →
    (partitionBound g.numCPU i).topRight.lon - (partitionBound g.numCPU i).bottomLeft.lon =
      360 / (g.numCPU : ℚ)) ∧
  (partitionBound g.numCPU (g.numCPU - 1)).topRight.lon = 180 ∧
  (∀ lon : ℚ, -180 ≤ lon → lon ≤ 180 → ∃! i, i < g.numCPU ∧ inBand g.numCPU i lon)

/-- C8: on every reachable index state the partition bounds are the ones
computed at construction (never merged, split or resized: `IndexPoints` and
`Clear` leave `numCPU` and `partitionBounds` untouched), the bands are
contiguous, every non-last band has width `360/P`, the last band's upper
bound is exactly `+180`, and the bands (half-open, the last one closed)
cover `[-180, 180]` exactly once. -/
theorem C8_partition_bands (g : GeoIndex) (hr : Reachable g) : BandStructure g := by
  obtain ⟨hP, hbounds⟩ := reachable_shape hr
  refine ⟨by rw [hbounds, List.length_map, List.length_range], hP, hbounds, ?_, ?_, ?_, ?_⟩
  · intro i hi
    have hne : i ≠ g.numCPU - 1 := by omega
    rw [partitionBound_tr_lon, if_neg hne, partitionBound_bl_lon]
    push_cast
    ring
  · intro i hi
    have hne : i ≠ g.numCPU - 1 := by omega
    rw [partitionBound_tr_lon, if_neg hne, partitionBound_bl_lon]
    ring
  · rw [partitionBound_tr_lon, if_pos rfl]
  · exact fun lon h1 h2 => band_cover hP lon h1 h2

/-- C8 witness: the band-structure theorem applied to a freshly constructed
four-partition index (reachability discharged by the construction rule). -/
theorem C8_witness :
    Reachable (newGeoIndexWithWorkers 4 1) ∧ BandStructure (newGeoIndexWithWorkers 4 1) :=
  ⟨Reachable.fresh 4 1 (le_refl 1),
    C8_partition_bands (newGeoIndexWithWorkers 4 1) (Reachable.fresh 4 1 (le_refl 1))⟩

theorem assignIdx_eq {P : ℕ} (hP : 1 ≤ P) {lon : ℚ} (h1 : -180 ≤ lon) :
    assignIdx P lon = min ⌊(lon + 180) / (360 / (P : ℚ))⌋.toNat (P - 1) := by
  have hW : (0 : ℚ) < 360 / (P : ℚ) := lonRange_pos hP
  have hE0 : 0 ≤ (lon + 180) / (360 / (P : ℚ)) := div_nonneg (by linarith) (le_of_lt hW)
  have hfl0 : 0 ≤ ⌊(lon + 180) / (360 / (P : ℚ))⌋ := Int.floor_nonneg.mpr hE0
  simp only [assignIdx, goTrunc]
  rw [if_pos hE0]
  rcases le_or_lt (P : ℤ) ⌊(lon + 180) / (360 / (P : ℚ))⌋ with hc | hc
  · rw [if_pos hc, if_neg (by omega)]
    omega
  · rw [if_neg (not_le.mpr hc), if_neg (by omega)]
    omega

theorem assignIdx_band {P : ℕ} (hP : 1 ≤ P) {lon : ℚ} (h1 : -180 ≤ lon) (h2 : lon ≤ 180) :
    (partitionBound P (assignIdx P lon)).bottomLeft.lon ≤ lon ∧
      lon ≤ (partitionBound P (assignIdx P lon)).topRight.lon := by
  have hW : (0 : ℚ) < 360 / (P : ℚ) := lonRange_pos hP
  have hE0 : 0 ≤ (lon + 180) / (360 / (P : ℚ)) := div_nonneg (by linarith) (le_of_lt hW)
  have hfl0 : 0 ≤ ⌊(lon + 180) / (360 / (P : ℚ))⌋ := Int.floor_nonneg.mpr hE0
  have hEW : ((lon + 180) / (360 / (P : ℚ))) * (360 / (P : ℚ)) = lon + 180 :=
    div_mul_cancel₀ _ (ne_of_gt hW)
  rw [assignIdx_eq hP h1]
  rcases le_or_lt (P - 1) ⌊(lon + 180) / (360 / (P : ℚ))⌋.toNat with hc | hc
  · rw [min_eq_right hc]
    constructor
    · rw [partitionBound_bl_lon]
      have hfle : (((P : ℚ) - 1)) ≤ (lon + 180) / (360 / (P : ℚ)) := by
        have h := Int.le_floor.mpr (le_of_eq (rfl : (((P - 1 : ℕ) : ℤ)) = ((P - 1 : ℕ) : ℤ)))
        have h' : (((P - 1 : ℕ) : ℤ)) ≤ ⌊(lon + 180) / (360 / (P : ℚ))⌋ := by omega
        have h'' := Int.le_floor.mp h'
        push_cast at h''
        calc ((P : ℚ) - 1) = ((P - 1 : ℕ) : ℚ) := by push_cast [hP]; ring
          _ ≤ _ := h''
      have := mul_le_mul_of_nonneg_right hfle (le_of_lt hW)
      rw [hEW] at this
      have hcast : ((P - 1 : ℕ) : ℚ) = (P : ℚ) - 1 := by push_cast [hP]; ring
      rw [hcast]
      linarith
    · rw [partitionBound_tr_lon, if_pos rfl]
      exact h2
  · rw [min_eq_left (le_of_lt hc)]
    have hjne : ⌊(lon + 180) / (360 / (P : ℚ))⌋.toNat ≠ P - 1 := by omega
    have hfle : ((⌊(lon + 180) / (360 / (P : ℚ))⌋.toNat : ℚ)) ≤
        (lon + 180) / (360 / (P : ℚ)) := by
      have h := Int.floor_le ((lon + 180) / (360 / (P : ℚ)))
      have hjz : ((⌊(lon + 180) / (360 / (P : ℚ))⌋.toNat : ℤ)) =
          ⌊(lon + 180) / (360 / (P : ℚ))⌋ := Int.toNat_of_nonneg hfl0
      rw [← hjz] at h
      exact_mod_cast h
    have hflt : (lon + 180) / (360 / (P : ℚ)) <
        (⌊(lon + 180) / (360 / (P : ℚ))⌋.toNat : ℚ) + 1 := by
      have h := Int.lt_floor_add_one ((lon + 180) / (360 / (P : ℚ)))
      have hjz : ((⌊(lon + 180) / (360 / (P : ℚ))⌋.toNat : ℤ)) =
          ⌊(lon + 180) / (360 / (P : ℚ))⌋ := Int.toNat_of_nonneg hfl0
      rw [← hjz] at h
      exact_mod_cast h
    constructor
    · rw [partitionBound_bl_lon]
      have := mul_le_mul_of_nonneg_right hfle (le_of_lt hW)
      rw [hEW] at this
      linarith
    · rw [partitionBound_tr_lon, if_neg hjne]
      have := mul_lt_mul_of_pos_right hflt hW
      rw [hEW] at this
      nlinarith

theorem indexPoints_getD {g : GeoIndex} {pts : List Point} {i : ℕ}
    (hi : i < g.numCPU) (hne : pts ≠ []) :
    (indexPoints g pts).partitions.getD i [] =
      g.partitions.getD i [] ++ bucketOf g.numCPU pts i := by
  rw [indexPoints, if_neg hne]
  exact getD_map_range _ _ _ _ hi

theorem mem_bucketOf {P : ℕ} {pts : List Point} {i : ℕ} {sp : SpatialPoint}
    (h : sp ∈ bucketOf P pts i) :
    ∃ p ∈ pts, ∃ loc, p.location = some loc ∧ assignIdx P loc.lon = i ∧
      sp = ⟨p, toRect loc⟩ := by
  obtain ⟨p, hp, hf⟩ := List.mem_filterMap.mp h
  rcases hloc : p.location with _ | loc
  · simp only [hloc] at hf
    exact absurd hf (by simp)
  · simp only [hloc] at hf
    by_cases ha : assignIdx P loc.lon = i
    · rw [if_pos ha] at hf
      exact ⟨p, hp, loc, hloc, ha, (Option.some_inj.mp hf).symm⟩
    · rw [if_neg ha] at hf
      exact absurd hf (by simp)

theorem wellFormed_indexPoints {g : GeoIndex} (hg : WellFormed g) (pts : List Point)
    (hpts : ∀ p ∈ pts, ∀ loc, p.location = some loc → -180 ≤ loc.lon ∧ loc.lon ≤ 180) :
    WellFormed (indexPoints g pts) := by
  by_cases h : pts = []
  · subst h
    rw [indexPoints, if_pos rfl]
    exact hg
  · obtain ⟨hP, hlen, hbounds, hsp⟩ := hg
    refine ⟨?_, ?_, ?_, ?_⟩
    · rw [indexPoints_numCPU]
      exact hP
    · rw [indexPoints_numCPU, indexPoints, if_neg h]
      simp
    · rw [indexPoints_numCPU, indexPoints_partitionBounds]
      exact hbounds
    · intro i hi sp hmem
      rw [indexPoints_numCPU] at hi
      have hiP := List.mem_range.mp hi
      rw [indexPoints_getD hiP h] at hmem
      rw [indexPoints_numCPU]
      rcases List.mem_append.mp hmem with hold | hnew
      · exact hsp i hi sp hold
      · obtain ⟨p, hp, loc, hloc, hass, hsp_eq⟩ := mem_bucketOf hnew
        subst hsp_eq
        have hrange := hpts p hp loc hloc
        have hband := assignIdx_band hP hrange.1 hrange.2
        rw [hass] at hband
        simp only [spOK, hloc, decide_eq_true_eq]
        exact ⟨trivial, hband.1, hband.2⟩

theorem wellFormed_clear {g : GeoIndex} (hg : WellFormed g) : WellFormed (clearIndex g) := by
  obtain ⟨hP, hlen, hbounds, _⟩ := hg
  refine ⟨hP, by simp [clearIndex], hbounds, ?_⟩
  intro i hi sp hsp
  rw [show (clearIndex g).partitions = List.replicate g.numCPU [] from rfl,
    getD_replicate_nil] at hsp
  exact absurd hsp (List.not_mem_nil sp)

theorem reachable_wellFormed {g : GeoIndex} (hr : Reachable g) : WellFormed g := by
  induction hr with
  | fresh n d hd => exact wellFormed_new n d hd
  | index g pts hg hpts ih => exact wellFormed_indexPoints ih pts hpts
  | clear g hg ih => exact wellFormed_clear ih

/-- C9: on every reachable index state (located inputs within the legal
longitude range) the structural invariant holds — every stored item has a
real (non-nil) location lying inside its own partition's closed longitude
band, so the unguarded location dereferences of `NearestNeighbors` never
meet a nil location, and `Clear` preserves the invariant by leaving every
partition tree empty. -/
theorem C9_partition_invariant (g : GeoIndex) (hr : Reachable g) :
    WellFormed g ∧
    (∀ sp ∈ storedSPs g, sp.point.location.isSome = true) ∧
    (∀ i ∈ List.range (clearIndex g).numCPU, (clearIndex g).partitions.getD i [] = []) := by
  have hw := reachable_wellFormed hr
  refine ⟨hw, ?_, ?_⟩
  · intro sp hsp
    unfold storedSPs at hsp
    obtain ⟨i, hi, hmem⟩ := List.mem_flatMap.mp hsp
    have hok := hw.2.2.2 i hi sp hmem
    rcases hloc : sp.point.location with _ | loc
    · simp only [spOK, hloc] at hok
      exact absurd hok (by simp)
    · simp
  · intro i _
    rw [show (clearIndex g).partitions = List.replicate g.numCPU [] from rfl,
      getD_replicate_nil]

/-- C9 witness: the invariant theorem applied to the reachable one-point
example index (constructed, then indexed with a batch whose located point
lies inside the legal longitude range). -/
theorem C9_witness :
    Reachable gEx ∧
    (WellFormed gEx ∧
      (∀ sp ∈ storedSPs gEx, sp.point.location.isSome = true) ∧
      (∀ i ∈ List.range (clearIndex gEx).numCPU, (clearIndex gEx).partitions.getD i [] = [])) := by
  have hre : Reachable gEx := by
    refine Reachable.index _ _ (Reachable.fresh 1 1 (le_refl 1)) ?_
    intro p hp loc hloc
    rcases List.mem_singleton.mp hp with rfl
    rw [show originPoint.location = some ⟨0, 0⟩ from rfl] at hloc
    rcases Option.some_inj.mp hloc with rfl
    norm_num
  exact ⟨hre, C9_partition_invariant gEx hre⟩

theorem coe_flatMap_range {α : Type _} (f : ℕ → List α) (P : ℕ) :
    (((List.range P).flatMap f : List α) : Multiset α) =
      ∑ i ∈ Finset.range P, ((f i : List α) : Multiset α) := by
  induction P with
  | zero => simp
  | succ n ih =>
      rw [List.range_succ, List.flatMap_append, ← Multiset.coe_add, ih, Finset.sum_range_succ]
      simp

theorem filterMap_ext {α β : Type _} {f g : α → Option β} (l : List α)
    (h : ∀ a ∈ l, f a = g a) : l.filterMap f = l.filterMap g := by
  induction l with
  | nil => rfl
  | cons a l ih =>
      rw [List.filterMap_cons, List.filterMap_cons, h a (by simp),
        ih (fun x hx => h x (by simp [hx]))]

theorem filterMap_filter {α β : Type _} (p : α → Bool) (f : α → Option β) (l : List α)
    (h : ∀ a ∈ l, f a ≠ none → p a = true) :
    (l.filter p).filterMap f = l.filterMap f := by
  induction l with
  | nil => rfl
  | cons a l ih =>
      have ih' := ih (fun x hx => h x (by simp [hx]))
      rw [List.filter_cons]
      by_cases hpa : p a = true
      · rw [if_pos hpa, List.filterMap_cons, List.filterMap_cons, ih']
      · have hfa : f a = none := by
          by_contra hc
          exact hpa (h a (by simp) hc)
        rw [if_neg (by simp [hpa]), List.filterMap_cons, hfa, ih']

theorem flatMap_filter {α β : Type _} (q : α → Bool) (f : α → List β) (l : List α)
    (h : ∀ a ∈ l, q a = false → f a = []) :
    (l.filter q).flatMap f = l.flatMap f := by
  induction l with
  | nil => rfl
  | cons a l ih =>
      have ih' := ih (fun x hx => h x (by simp [hx]))
      rw [List.filter_cons]
      by_cases hqa : q a = true
      · rw [if_pos hqa, List.flatMap_cons, List.flatMap_cons, ih']
      · rw [if_neg (by simp [hqa]), List.flatMap_cons,
          h a (by simp) (by simp at hqa; exact hqa), List.nil_append, ih']

theorem filterMap_flatMap {α β γ : Type _} (l : List α) (f : α → List β) (g : β → Option γ) :
    (l.flatMap f).filterMap g = l.flatMap (fun a => (f a).filterMap g) := by
  induction l with
  | nil => rfl
  | cons a l ih => rw [List.flatMap_cons, List.flatMap_cons, List.filterMap_append, ih]

theorem sum_filterMap_buckets {β : Type _} (σ : Point → Option ℕ) (v : Point → β) {P : ℕ}
    (hσ : ∀ p j, σ p = some j → j < P) (pts : List Point) :
    ∑ i ∈ Finset.range P,
        ((pts.filterMap (fun p => if σ p = some i then some (v p) else none) : List β) :
          Multiset β) =
      (((pts.filter (fun p => (σ p).isSome)).map v : List β) : Multiset β) := by
  induction pts with
  | nil => simp
  | cons p pts ih =>
      have hstep : ∀ i,
          ((List.filterMap (fun p => if σ p = some i then some (v p) else none) (p :: pts) :
            List β) : Multiset β) =
          (if σ p = some i then ({v p} : Multiset β) else 0) +
            ((List.filterMap (fun p => if σ p = some i then some (v p) else none) pts :
              List β) : Multiset β) := by
        intro i
        rw [List.filterMap_cons]
        by_cases h : σ p = some i
        · rw [if_pos h, if_pos h, Multiset.singleton_add]
          rfl
        · rw [if_neg h, if_neg h, zero_add]
      rw [Finset.sum_congr rfl (fun i _ => hstep i), Finset.sum_add_distrib, ih]
      rcases hσp : σ p with _ | j
      · have hzero : ∑ i ∈ Finset.range P,
            (if (none : Option ℕ) = some i then ({v p} : Multiset β) else 0) = 0 :=
          Finset.sum_eq_zero (fun i _ => if_neg (by simp))
        rw [hzero, zero_add, List.filter_cons, if_neg (by simp [hσp])]
      · have hjP : j < P := hσ p j hσp
        have hcongr : ∀ i, (if (some j : Option ℕ) = some i then ({v p} : Multiset β) else 0) =
            (if i = j then ({v p} : Multiset β) else 0) := by
          intro i
          by_cases hij : i = j
          · subst hij
            rw [if_pos rfl, if_pos rfl]
          · rw [if_neg (by simp [Option.some_inj]; exact fun h => hij h.symm), if_neg hij]
        rw [Finset.sum_congr rfl (fun i _ => hcongr i),
          Finset.sum_ite_eq' (Finset.range P) j (fun _ => ({v p} : Multiset β)),
          if_pos (Finset.mem_range.mpr hjP), List.filter_cons, if_pos (by simp [hσp]),
          List.map_cons, Multiset.singleton_add]
        rfl

theorem newRect_strict {box : BoundingBox} (hlat : box.bottomLeft.lat < box.topRight.lat)
    (hlon : box.bottomLeft.lon < box.topRight.lon) :
    newRect box.bottomLeft.lat box.bottomLeft.lon (box.topRight.lat - box.bottomLeft.lat)
        (box.topRight.lon - box.bottomLeft.lon) =
      some ⟨box.bottomLeft.lat, box.topRight.lat, box.bottomLeft.lon, box.topRight.lon⟩ := by
  unfold newRect
  rw [if_neg (by push_neg; constructor <;> linarith)]
  have h1 : box.bottomLeft.lat + (box.topRight.lat - box.bottomLeft.lat) =
      box.topRight.lat := by ring
  have h2 : box.bottomLeft.lon + (box.topRight.lon - box.bottomLeft.lon) =
      box.topRight.lon := by ring
  rw [h1, h2]

theorem inBoxStrict_some {box : BoundingBox} {sp : SpatialPoint} {q : Point}
    (h : inBoxStrict box sp = some q) :
    q = sp.point ∧ ∃ loc, sp.point.location = some loc ∧
      box.bottomLeft.lat ≤ loc.lat ∧ loc.lat ≤ box.topRight.lat ∧
      box.bottomLeft.lon ≤ loc.lon ∧ loc.lon ≤ box.topRight.lon := by
  unfold inBoxStrict at h
  rcases hloc : sp.point.location with _ | loc
  · simp only [hloc] at h
    exact absurd h (by simp)
  · simp only [hloc] at h
    by_cases hb : box.bottomLeft.lat ≤ loc.lat ∧ loc.lat ≤ box.topRight.lat ∧
        box.bottomLeft.lon ≤ loc.lon ∧ loc.lon ≤ box.topRight.lon
    · rw [if_pos hb] at h
      exact ⟨(Option.some_inj.mp h).symm, loc, rfl, hb.1, hb.2.1, hb.2.2.1, hb.2.2.2⟩
    · rw [if_neg hb] at h
      exact absurd h (by simp)

theorem queryBoxPartition_eq_filterMap {box : BoundingBox} {tree : List SpatialPoint}
    (hlat : box.bottomLeft.lat < box.topRight.lat)
    (hlon : box.bottomLeft.lon < box.topRight.lon)
    (htree : ∀ sp ∈ tree, ∃ loc, sp.point.location = some loc ∧ sp.rect = toRect loc) :
    queryBoxPartition box tree = tree.filterMap (inBoxStrict box) := by
  unfold queryBoxPartition
  rw [newRect_strict hlat hlon]
  unfold searchIntersect
  apply filterMap_filter
  intro sp hsp hne
  obtain ⟨loc, hloc, hrect⟩ := htree sp hsp
  rcases hval : inBoxStrict box sp with _ | q
  · exact absurd hval hne
  · obtain ⟨-, loc', hloc', h1, h2, h3, h4⟩ := inBoxStrict_some hval
    rw [hloc] at hloc'
    rcases Option.some_inj.mp hloc' with rfl
    rw [hrect]
    unfold rectIntersects toRect tolerance
    simp only [decide_eq_true_eq]
    refine ⟨by linarith, by linarith, by linarith, by linarith⟩

theorem mem_storedSPs_props {g : GeoIndex} (hg : WellFormed g) {sp : SpatialPoint}
    (h : sp ∈ storedSPs g) :
    ∃ loc, sp.point.location = some loc ∧ sp.rect = toRect loc ∧
      -180 ≤ loc.lon ∧ loc.lon ≤ 180 := by
  obtain ⟨i, hi, hmem⟩ := List.mem_flatMap.mp h
  have hok := hg.2.2.2 i hi sp hmem
  have hiP := List.mem_range.mp hi
  rcases hloc : sp.point.location with _ | loc
  · simp only [spOK, hloc] at hok
    exact absurd hok (by simp)
  · simp only [spOK, hloc, decide_eq_true_eq] at hok
    refine ⟨loc, rfl, hok.1, ?_, ?_⟩
    · exact le_trans (partitionBound_neg180_le_bl hg.1) hok.2.1
    · exact le_trans hok.2.2 (partitionBound_tr_le_180 hg.1 hiP)

/-- The central exactness property of `QueryBox` on any well-formed index
with a strictly non-degenerate box: the result is exactly the stored items
passing the strict boundary check, in storage order — routing never drops a
matching partition and the tolerance rectangles never hide a contained
point. -/
theorem queryBox_exact_general {g : GeoIndex} (hg : WellFormed g) {box : BoundingBox}
    (hlat : box.bottomLeft.lat < box.topRight.lat)
    (hlon : box.bottomLeft.lon < box.topRight.lon) :
    (queryBox g box).1 = (storedSPs g).filterMap (inBoxStrict box) := by
  have hP := hg.1
  have htree : ∀ i, ∀ sp ∈ g.partitions.getD i [],
      ∃ loc, sp.point.location = some loc ∧ sp.rect = toRect loc ∧
        (i < g.numCPU →
          (partitionBound g.numCPU i).bottomLeft.lon ≤ loc.lon ∧
            loc.lon ≤ (partitionBound g.numCPU i).topRight.lon) := by
    intro i sp hmem
    by_cases hiP : i < g.numCPU
    · have hok := hg.2.2.2 i (List.mem_range.mpr hiP) sp hmem
      rcases hloc : sp.point.location with _ | loc
      · simp only [spOK, hloc] at hok
        exact absurd hok (by simp)
      · simp only [spOK, hloc, decide_eq_true_eq] at hok
        exact ⟨loc, rfl, hok.1, fun _ => ⟨hok.2.1, hok.2.2⟩⟩
    · have hlen : g.partitions.length = g.numCPU := hg.2.1
      have : g.partitions.getD i [] = [] := by
        rw [List.getD_eq_getElem?_getD, List.getElem?_eq_none (by omega)]
        rfl
      rw [this] at hmem
      exact absurd hmem (List.not_mem_nil sp)
  show (getRelevantPartitions g box).flatMap
      (fun i => queryBoxPartition box (g.partitions.getD i [])) = _
  have hboundslen : g.partitionBounds.length = g.numCPU := by
    rw [hg.2.2.1, List.length_map, List.length_range]
  unfold getRelevantPartitions
  rw [hboundslen]
  rw [flatMap_filter _ _ _ ?hempty]
  case hempty =>
    intro i hi hcond
    have hiP := List.mem_range.mp hi
    rw [queryBoxPartition_eq_filterMap hlat hlon
      (fun sp hsp => by obtain ⟨loc, h1, h2, _⟩ := htree i sp hsp; exact ⟨loc, h1, h2⟩)]
    rw [List.filterMap_eq_nil_iff]
    intro sp hsp
    rcases hval : inBoxStrict box sp with _ | q
    · rfl
    · exfalso
      obtain ⟨-, loc, hloc, h1, h2, h3, h4⟩ := inBoxStrict_some hval
      obtain ⟨loc', hloc', -, hband⟩ := htree i sp hsp
      rw [hloc] at hloc'
      rcases Option.some_inj.mp hloc' with rfl
      obtain ⟨hb1, hb2⟩ := hband hiP
      rw [hg.2.2.1, getD_map_range _ _ _ _ hiP] at hcond
      have htrue : box.bottomLeft.lon ≤ (partitionBound g.numCPU i).topRight.lon ∧
          (partitionBound g.numCPU i).bottomLeft.lon ≤ box.topRight.lon :=
        ⟨le_trans h3 hb2, le_trans hb1 h4⟩
      rw [decide_eq_true htrue] at hcond
      exact absurd hcond (by simp)
  · rw [flatMap_congr (fun i hi => queryBoxPartition_eq_filterMap hlat hlon
      (fun sp hsp => by
        obtain ⟨loc, h1, h2, _⟩ := htree i sp hsp
        exact ⟨loc, h1, h2⟩))]
    rw [storedSPs, filterMap_flatMap]

/-- C1 (amended to strictly non-degenerate boxes): for every batch of
located points with legal coordinates, every partition count (any
requested value, with any positive default), and every box with
`bottomLeft.lat < topRight.lat` and `bottomLeft.lon < topRight.lon`,
`QueryBox` returns exactly the points of the batch whose location satisfies
the closed box bounds — up to order, and independently of the partition
count (the right-hand side does not mention it).  For a zero-area box the
claim fails because the primitive's rectangle construction rejects
non-positive side lengths and the failure is swallowed (see the
counterexample). -/
theorem C1_queryBox_exact (pts : List Point) (P : ℤ) (d : ℕ) (hd : 1 ≤ d)
    (box : BoundingBox)
    (hpts : ∀ p ∈ pts, ∃ loc, p.location = some loc ∧
      -90 ≤ loc.lat ∧ loc.lat ≤ 90 ∧ -180 ≤ loc.lon ∧ loc.lon ≤ 180)
    (hlat : box.bottomLeft.lat < box.topRight.lat)
    (hlon : box.bottomLeft.lon < box.topRight.lon) :
    ((queryBox (indexPoints (newGeoIndexWithWorkers P d) pts) box).1).Perm
      (pts.filter (fun p =>
        match p.location with
        | none => false
        | some loc =>
            decide (box.bottomLeft.lat ≤ loc.lat ∧ loc.lat ≤ box.topRight.lat ∧
              box.bottomLeft.lon ≤ loc.lon ∧ loc.lon ≤ box.topRight.lon))) := by
  have hlon_pts : ∀ p ∈ pts, ∀ loc, p.location = some loc →
      -180 ≤ loc.lon ∧ loc.lon ≤ 180 := by
    intro p hp loc hloc
    obtain ⟨loc', hloc', _, _, h3, h4⟩ := hpts p hp
    rw [hloc'] at hloc
    rcases Option.some_inj.mp hloc with rfl
    exact ⟨h3, h4⟩
  have hw0 := wellFormed_new P d hd
  have hw := wellFormed_indexPoints hw0 pts hlon_pts
  rw [← Multiset.coe_eq_coe, queryBox_exact_general hw hlat hlon]
  have hstored : storedSPs (indexPoints (newGeoIndexWithWorkers P d) pts) =
      (List.range (newGeoIndexWithWorkers P d).numCPU).flatMap
        (fun i => bucketOf (newGeoIndexWithWorkers P d).numCPU pts i) := by
    rw [storedSPs_indexPoints]
    exact flatMap_congr (fun i _ => by
      rw [show (newGeoIndexWithWorkers P d).partitions =
          List.replicate (newGeoIndexWithWorkers P d).numCPU [] from rfl,
        getD_replicate_nil, List.nil_append])
  rw [hstored, filterMap_flatMap, coe_flatMap_range]
  have hcomp : ∀ i, (bucketOf (newGeoIndexWithWorkers P d).numCPU pts i).filterMap
      (inBoxStrict box) =
      pts.filterMap (fun p =>
        if (match p.location with
            | none => none
            | some loc =>
                if box.bottomLeft.lat ≤ loc.lat ∧ loc.lat ≤ box.topRight.lat ∧
                    box.bottomLeft.lon ≤ loc.lon ∧ loc.lon ≤ box.topRight.lon then
                  some (assignIdx (newGeoIndexWithWorkers P d).numCPU loc.lon)
                else none) = some i
        then some p else none) := by
    intro i
    unfold bucketOf
    rw [List.filterMap_filterMap]
    apply filterMap_ext
    intro p _
    rcases hloc : p.location with _ | loc
    · simp
    · by_cases ha : assignIdx (newGeoIndexWithWorkers P d).numCPU loc.lon = i <;>
        by_cases hb : box.bottomLeft.lat ≤ loc.lat ∧ loc.lat ≤ box.topRight.lat ∧
          box.bottomLeft.lon ≤ loc.lon ∧ loc.lon ≤ box.topRight.lon <;>
        simp [hloc, ha, hb, inBoxStrict]
  rw [Finset.sum_congr rfl (fun i _ => by rw [hcomp i])]
  rw [sum_filterMap_buckets
    (fun p => match p.location with
      | none => none
      | some loc =>
          if box.bottomLeft.lat ≤ loc.lat ∧ loc.lat ≤ box.topRight.lat ∧
              box.bottomLeft.lon ≤ loc.lon ∧ loc.lon ≤ box.topRight.lon then
            some (assignIdx (newGeoIndexWithWorkers P d).numCPU loc.lon)
          else none)
    (fun p => p) ?hsig pts]
  case hsig =>
    intro p j h
    rcases hloc : p.location with _ | loc
    · simp only [hloc] at h
      exact absurd h (by simp)
    · simp only [hloc] at h
      by_cases hb : box.bottomLeft.lat ≤ loc.lat ∧ loc.lat ≤ box.topRight.lat ∧
          box.bottomLeft.lon ≤ loc.lon ∧ loc.lon ≤ box.topRight.lon
      · rw [if_pos hb] at h
        rcases Option.some_inj.mp h with rfl
        exact assignIdx_lt hw0.1 loc.lon
      · rw [if_neg hb] at h
        exact absurd h (by simp)
  · rw [List.map_id']
    rw [List.filter_congr]
    intro p _
    rcases hloc : p.location with _ | loc
    · simp [hloc]
    · simp only [hloc]
      by_cases hb : box.bottomLeft.lat ≤ loc.lat ∧ loc.lat ≤ box.topRight.lat ∧
          box.bottomLeft.lon ≤ loc.lon ∧ loc.lon ≤ box.topRight.lon
      · rw [if_pos hb]
        simp [hb]
      · rw [if_neg hb]
        simp [hb]

/-- C1 witness: the exactness theorem applied to the one-point batch, a
fresh one-partition index, and the strictly non-degenerate box
`[-1,-1] × [1,1]`, with every hypothesis discharged concretely. -/
theorem C1_witness :
    (1 : ℕ) ≤ 1 ∧
    (∀ p ∈ [originPoint], ∃ loc, p.location = some loc ∧
      -90 ≤ loc.lat ∧ loc.lat ≤ 90 ∧ -180 ≤ loc.lon ∧ loc.lon ≤ 180) ∧
    ((⟨⟨-1, -1⟩, ⟨1, 1⟩⟩ : BoundingBox).bottomLeft.lat <
      (⟨⟨-1, -1⟩, ⟨1, 1⟩⟩ : BoundingBox).topRight.lat) ∧
    ((queryBox (indexPoints (newGeoIndexWithWorkers 1 1) [originPoint])
        ⟨⟨-1, -1⟩, ⟨1, 1⟩⟩).1).Perm
      (([originPoint] : List Point).filter (fun p =>
        match p.location with
        | none => false
        | some loc =>
            decide ((⟨⟨-1, -1⟩, ⟨1, 1⟩⟩ : BoundingBox).bottomLeft.lat ≤ loc.lat ∧
              loc.lat ≤ (⟨⟨-1, -1⟩, ⟨1, 1⟩⟩ : BoundingBox).topRight.lat ∧
              (⟨⟨-1, -1⟩, ⟨1, 1⟩⟩ : BoundingBox).bottomLeft.lon ≤ loc.lon ∧
              loc.lon ≤ (⟨⟨-1, -1⟩, ⟨1, 1⟩⟩ : BoundingBox).topRight.lon))) := by
  have hpts : ∀ p ∈ [originPoint], ∃ loc, p.location = some loc ∧
      -90 ≤ loc.lat ∧ loc.lat ≤ 90 ∧ -180 ≤ loc.lon ∧ loc.lon ≤ 180 := by
    intro p hp
    rcases List.mem_singleton.mp hp with rfl
    exact ⟨⟨0, 0⟩, rfl, by norm_num, by norm_num, by norm_num, by norm_num⟩
  exact ⟨le_refl 1, hpts, by norm_num,
    C1_queryBox_exact [originPoint] 1 1 (le_refl 1) ⟨⟨-1, -1⟩, ⟨1, 1⟩⟩ hpts
      (by norm_num) (by norm_num)⟩

theorem assignIdx_one_zero : assignIdx 1 0 = 0 := by
  rw [assignIdx_eq (le_refl 1) (by norm_num)]
  exact Nat.min_zero _

theorem storedSPs_gEx : storedSPs gEx = [⟨originPoint, toRect ⟨0, 0⟩⟩] := by
  show storedSPs (indexPoints (newGeoIndexWithWorkers 1 1) [originPoint]) = _
  rw [storedSPs_indexPoints]
  show List.flatMap (List.range 1) _ = _
  rw [show List.range 1 = [0] from rfl]
  rw [List.flatMap_cons, List.flatMap_nil, List.append_nil,
    show (newGeoIndexWithWorkers 1 1).partitions = List.replicate 1 [] from rfl,
    getD_replicate_nil, List.nil_append]
  unfold bucketOf
  rw [List.filterMap_cons]
  simp only [show (newGeoIndexWithWorkers 1 1).numCPU = 1 from rfl,
    show originPoint.location = some ⟨0, 0⟩ from rfl, assignIdx_one_zero]
  simp

/-- C1 counterexample: the one-point index holds `originPoint` at `(0,0)`;
the degenerate box `[(0,0),(0,0)]` satisfies the claim's premise
`bottomLeft ≤ topRight` and contains that location, yet `QueryBox` returns
the empty list — the zero side lengths make the per-partition rectangle
construction fail, and the failure is silently swallowed. -/
theorem C1_cex :
    (queryBox gEx degBox).1 = [] ∧
    (∃ sp ∈ storedSPs gEx, sp.point = originPoint) ∧
    originPoint.location = some ⟨0, 0⟩ ∧
    (degBox.bottomLeft.lat ≤ (0 : ℚ) ∧ (0 : ℚ) ≤ degBox.topRight.lat ∧
      degBox.bottomLeft.lon ≤ (0 : ℚ) ∧ (0 : ℚ) ≤ degBox.topRight.lon) ∧
    degBox.bottomLeft.lat ≤ degBox.topRight.lat ∧
    degBox.bottomLeft.lon ≤ degBox.topRight.lon := by
  refine ⟨?_, ⟨⟨originPoint, toRect ⟨0, 0⟩⟩, by rw [storedSPs_gEx]; simp, rfl⟩, rfl,
    by norm_num [degBox], by norm_num [degBox], by norm_num [degBox]⟩
  show ((getRelevantPartitions gEx degBox).flatMap _) = []
  exact flatMap_eq_nil_of _ _
    (fun i _ => queryBoxPartition_degenerate degBox _ (Or.inl (by norm_num [degBox])))

theorem filterMap_eq_map_of {α β : Type _} {f : α → Option β} {gm : α → β} (l : List α)
    (h : ∀ a ∈ l, f a = some (gm a)) : l.filterMap f = l.map gm := by
  induction l with
  | nil => rfl
  | cons a l ih =>
      rw [List.filterMap_cons, h a (by simp), List.map_cons,
        ih (fun x hx => h x (by simp [hx]))]

theorem storedSPs_clear (g : GeoIndex) : storedSPs (clearIndex g) = [] := by
  unfold storedSPs
  apply flatMap_eq_nil_of
  intro i _
  rw [show (clearIndex g).partitions = List.replicate g.numCPU [] from rfl,
    getD_replicate_nil]

/-- On a well-formed index whose stored latitudes are legal, the full-world
`QueryBox` of `SaveToFile` extracts exactly the stored points, in storage
order. -/
theorem queryBox_world {g : GeoIndex} (hg : WellFormed g)
    (hlat : ∀ sp ∈ storedSPs g, ∀ loc, sp.point.location = some loc →
      -90 ≤ loc.lat ∧ loc.lat ≤ 90) :
    (queryBox g largeBounds).1 = (storedSPs g).map (fun sp => sp.point) := by
  rw [@queryBox_exact_general g hg largeBounds (by norm_num [largeBounds])
    (by norm_num [largeBounds])]
  apply filterMap_eq_map_of
  intro sp hsp
  obtain ⟨loc, hloc, -, hlon1, hlon2⟩ := mem_storedSPs_props hg hsp
  obtain ⟨hlat1, hlat2⟩ := hlat sp hsp loc hloc
  unfold inBoxStrict
  simp only [hloc]
  rw [if_pos]
  exact ⟨hlat1, hlat2, hlon1, hlon2⟩

theorem coe_points_indexPoints {g : GeoIndex} (hP : 1 ≤ g.numCPU) (pts : List Point) :
    (((storedSPs (indexPoints g pts)).map (fun sp => sp.point) : List Point) :
      Multiset Point) =
      ((storedSPs g).map (fun sp => sp.point) : List Point) +
        (pts.filter (fun p => p.location.isSome) : List Point) := by
  rw [storedSPs_indexPoints, List.map_flatMap, coe_flatMap_range]
  have hsplit : ∀ i, ((List.map (fun sp => sp.point)
      (g.partitions.getD i [] ++ bucketOf g.numCPU pts i) : List Point) : Multiset Point) =
      ((List.map (fun sp => sp.point) (g.partitions.getD i []) : List Point) : Multiset Point) +
        ((List.map (fun sp => sp.point) (bucketOf g.numCPU pts i) : List Point) :
          Multiset Point) := by
    intro i
    rw [List.map_append, Multiset.coe_add]
  rw [Finset.sum_congr rfl (fun i _ => hsplit i), Finset.sum_add_distrib]
  have hold : ∑ i ∈ Finset.range g.numCPU,
      ((List.map (fun sp => sp.point) (g.partitions.getD i []) : List Point) : Multiset Point) =
      (((storedSPs g).map (fun sp => sp.point) : List Point) : Multiset Point) := by
    rw [storedSPs, List.map_flatMap, coe_flatMap_range]
  have hbucket : ∀ i, (List.map (fun sp => sp.point) (bucketOf g.numCPU pts i) : List Point) =
      pts.filterMap (fun p =>
        if (match p.location with
            | none => none
            | some loc => some (assignIdx g.numCPU loc.lon)) = some i
        then some p else none) := by
    intro i
    unfold bucketOf
    rw [List.map_filterMap]
    apply filterMap_ext
    intro p _
    rcases hloc : p.location with _ | loc
    · simp
    · by_cases ha : assignIdx g.numCPU loc.lon = i <;> simp [hloc, ha]
  have hbsum : ∑ i ∈ Finset.range g.numCPU,
      ((List.map (fun sp => sp.point) (bucketOf g.numCPU pts i) : List Point) :
        Multiset Point) =
      ((pts.filter (fun p => p.location.isSome) : List Point) : Multiset Point) := by
    rw [Finset.sum_congr rfl (fun i _ => by rw [hbucket i])]
    rw [sum_filterMap_buckets
      (fun p => match p.location with
        | none => none
        | some loc => some (assignIdx g.numCPU loc.lon))
      (fun p => p) ?hsig pts]
    case hsig =>
      intro p j h
      rcases hloc : p.location with _ | loc
      · simp only [hloc] at h
        exact absurd h (by simp)
      · simp only [hloc] at h
        rcases Option.some_inj.mp h with rfl
        exact assignIdx_lt hP loc.lon
    · rw [List.map_id']
      have hfcong : List.filter (fun p =>
          ((match p.location with
            | none => none
            | some loc => some (assignIdx g.numCPU loc.lon)) : Option ℕ).isSome) pts =
          List.filter (fun p => p.location.isSome) pts := by
        apply List.filter_congr
        intro p _
        rcases hloc : p.location with _ | loc <;> simp [hloc]
      rw [hfcong]
  rw [hold, hbsum]

/-- C4: saving (full-world extraction into the envelope) and loading into
any well-formed destination index (`Clear` + `IndexPoints` on the decoded
points) is a round trip: the full-world `QueryBox` before the save and on
the destination after the load yield the same multiset of
`(id, location)` pairs, order-independently — for any two partition
counts.  The gob codec and file I/O are modelled as a faithful envelope
round trip. -/
theorem C4_save_load_roundtrip (g g2 : GeoIndex) (hg : WellFormed g)
    (hlat : ∀ sp ∈ storedSPs g, ∀ loc, sp.point.location = some loc →
      -90 ≤ loc.lat ∧ loc.lat ≤ 90)
    (hg2 : WellFormed g2) :
    ((queryBox (loadData g2 (saveData g)) largeBounds).1.map
        (fun p => (p.id, p.location))).Perm
      ((queryBox g largeBounds).1.map (fun p => (p.id, p.location))) := by
  have hS : (saveData g).points = (storedSPs g).map (fun sp => sp.point) := by
    show (queryBox g largeBounds).1 = _
    exact queryBox_world hg hlat
  have hSloc : ∀ p ∈ (saveData g).points, ∃ loc, p.location = some loc ∧
      -90 ≤ loc.lat ∧ loc.lat ≤ 90 ∧ -180 ≤ loc.lon ∧ loc.lon ≤ 180 := by
    intro p hp
    rw [hS] at hp
    obtain ⟨sp, hsp, rfl⟩ := List.mem_map.mp hp
    obtain ⟨loc, h1, -, h4, h5⟩ := mem_storedSPs_props hg hsp
    obtain ⟨h2, h3⟩ := hlat sp hsp loc h1
    exact ⟨loc, h1, h2, h3, h4, h5⟩
  have hwc := wellFormed_clear hg2
  have hwl : WellFormed (loadData g2 (saveData g)) := by
    apply wellFormed_indexPoints hwc
    intro p hp loc hloc
    obtain ⟨loc', h1, _, _, h4, h5⟩ := hSloc p hp
    rw [h1] at hloc
    rcases Option.some_inj.mp hloc with rfl
    exact ⟨h4, h5⟩
  have hcoe : (((storedSPs (loadData g2 (saveData g))).map (fun sp => sp.point) :
      List Point) : Multiset Point) = ((saveData g).points : Multiset Point) := by
    show (((storedSPs (indexPoints (clearIndex g2) (saveData g).points)).map
      (fun sp => sp.point) : List Point) : Multiset Point) = _
    rw [coe_points_indexPoints hwc.1, storedSPs_clear]
    rw [show (List.map (fun sp => sp.point) ([] : List SpatialPoint)) = [] from rfl]
    rw [List.filter_eq_self.mpr (fun p hp => by
      obtain ⟨loc, h1, -⟩ := hSloc p hp
      simp [h1])]
    rfl
  have hlat2 : ∀ sp ∈ storedSPs (loadData g2 (saveData g)), ∀ loc,
      sp.point.location = some loc → -90 ≤ loc.lat ∧ loc.lat ≤ 90 := by
    intro sp hsp loc hloc
    have hmem : sp.point ∈ (storedSPs (loadData g2 (saveData g))).map
        (fun sp => sp.point) := List.mem_map_of_mem _ hsp
    have hmem2 : sp.point ∈ (saveData g).points :=
      (Multiset.coe_eq_coe.mp hcoe).mem_iff.mp hmem
    obtain ⟨loc', h1, h2, h3, -, -⟩ := hSloc sp.point hmem2
    rw [h1] at hloc
    rcases Option.some_inj.mp hloc with rfl
    exact ⟨h2, h3⟩
  apply List.Perm.map
  rw [queryBox_world hwl hlat2, ← Multiset.coe_eq_coe, hcoe]
  rfl

/-- C4 witness: the round-trip theorem applied to the one-point example
index saved and loaded into a fresh two-partition index. -/
theorem C4_witness :
    WellFormed gEx ∧
    (∀ sp ∈ storedSPs gEx, ∀ loc, sp.point.location = some loc →
      -90 ≤ loc.lat ∧ loc.lat ≤ 90) ∧
    WellFormed (newGeoIndexWithWorkers 2 1) ∧
    ((queryBox (loadData (newGeoIndexWithWorkers 2 1) (saveData gEx)) largeBounds).1.map
        (fun p => (p.id, p.location))).Perm
      ((queryBox gEx largeBounds).1.map (fun p => (p.id, p.location))) := by
  have hwEx : WellFormed gEx := by
    apply wellFormed_indexPoints (wellFormed_new 1 1 (le_refl 1))
    intro p hp loc hloc
    rcases List.mem_singleton.mp hp with rfl
    rw [show originPoint.location = some ⟨0, 0⟩ from rfl] at hloc
    rcases Option.some_inj.mp hloc with rfl
    norm_num
  have hlatEx : ∀ sp ∈ storedSPs gEx, ∀ loc, sp.point.location = some loc →
      -90 ≤ loc.lat ∧ loc.lat ≤ 90 := by
    intro sp hsp loc hloc
    rw [storedSPs_gEx] at hsp
    rcases List.mem_singleton.mp hsp with rfl
    rw [show (⟨originPoint, toRect ⟨0, 0⟩⟩ : SpatialPoint).point.location =
      some ⟨0, 0⟩ from rfl] at hloc
    rcases Option.some_inj.mp hloc with rfl
    norm_num
  exact ⟨hwEx, hlatEx, wellFormed_new 2 1 (le_refl 1),
    C4_save_load_roundtrip gEx (newGeoIndexWithWorkers 2 1) hwEx hlatEx
      (wellFormed_new 2 1 (le_refl 1))⟩

theorem degOf_pos {r : ℚ} (hr : 0 < r) : 0 < degOf r := by
  unfold degOf
  have h1 : (0 : ℝ) < (r : ℝ) / (earthRadius : ℝ) := by
    apply div_pos
    · exact_mod_cast hr
    · norm_num [earthRadius]
  have h2 : (0 : ℝ) < 180 / Real.pi := by
    have := Real.pi_pos
    positivity
  exact mul_pos h1 h2

theorem Distance_same (lat lon : ℚ) : Distance lat lon lat lon = 0 := by
  unfold Distance atan2
  norm_num

/-- C2 soundness: every point returned by `QueryRadius` is a stored point
whose true Haversine distance from the center is at most the radius. -/
def C2Sound (g : GeoIndex) (c : Location) (r : ℚ) : Prop :=
  ∀ p ∈ (queryRadius g c r).1, (∃ sp ∈ storedSPs g, sp.point = p) ∧
    ∃ loc, p.location = some loc ∧ Distance c.lat c.lon loc.lat loc.lon ≤ (r : ℝ)

/-- C2 completeness under the angular pre-filter: for a positive radius,
every stored point within Haversine distance `r` whose latitude and
longitude both lie within `degOf r` of the center is returned. -/
def C2Complete (g : GeoIndex) (c : Location) (r : ℚ) : Prop :=
  0 < r → ∀ sp ∈ storedSPs g, ∀ loc, sp.point.location = some loc →
    Distance c.lat c.lon loc.lat loc.lon ≤ (r : ℝ) →
    |(loc.lat : ℝ) - (c.lat : ℝ)| ≤ degOf r →
    |(loc.lon : ℝ) - (c.lon : ℝ)| ≤ degOf r →
    sp.point ∈ (queryRadius g c r).1

/-- C2 (amended): on every well-formed index, `QueryRadius` returns only
stored points with Haversine distance at most `r` (the exact final filter),
and conversely, for `r > 0`, returns every stored point within distance `r`
that also lies inside the angular pre-filter box `center ± degOf r`.  The
pre-filter is a real filter: at `r = 0` the claim's boundary case fails
outright (see the counterexample), and points outside the angular box
(possible at high latitudes where longitude degrees shrink) are not
guaranteed. -/
theorem C2_queryRadius_sound_complete (g : GeoIndex) (hg : WellFormed g)
    (c : Location) (r : ℚ) : C2Sound g c r ∧ C2Complete g c r := by
  classical
  have hboundslen : g.partitionBounds.length = g.numCPU := by
    rw [hg.2.2.1, List.length_map, List.length_range]
  constructor
  · intro p hp
    simp only [queryRadius] at hp
    obtain ⟨i, hiroute, hmem⟩ := List.mem_flatMap.mp hp
    have hiP : i < g.numCPU := by
      have := List.mem_range.mp (List.mem_of_mem_filter hiroute)
      rwa [hboundslen] at this
    simp only [queryRadiusPartition] at hmem
    rcases hrect : newRectR ((c.lat : ℝ) - degOf r) ((c.lon : ℝ) - degOf r)
        (2 * degOf r) (2 * degOf r) with _ | bounds
    · rw [hrect] at hmem
      exact absurd hmem (List.not_mem_nil p)
    · rw [hrect] at hmem
      obtain ⟨sp, hspf, hval⟩ := List.mem_filterMap.mp hmem
      have hspmem : sp ∈ g.partitions.getD i [] := List.mem_of_mem_filter hspf
      have hstored : sp ∈ storedSPs g :=
        List.mem_flatMap.mpr ⟨i, List.mem_range.mpr hiP, hspmem⟩
      rcases hloc : sp.point.location with _ | loc
      · simp only [hloc] at hval
        exact absurd hval (by simp)
      · simp only [hloc] at hval
        by_cases hd : Distance c.lat c.lon loc.lat loc.lon ≤ (r : ℝ)
        · rw [if_pos hd] at hval
          rcases Option.some_inj.mp hval with rfl
          exact ⟨⟨sp, hstored, rfl⟩, loc, hloc, hd⟩
        · rw [if_neg hd] at hval
          exact absurd hval (by simp)
  · intro hr sp hsp loc hloc hdist hlatb hlonb
    obtain ⟨i, hi, hmem⟩ := List.mem_flatMap.mp hsp
    have hiP := List.mem_range.mp hi
    have hok := hg.2.2.2 i hi sp hmem
    simp only [spOK, hloc, decide_eq_true_eq] at hok
    obtain ⟨hrect, hband1, hband2⟩ := hok
    have hdeg := degOf_pos hr
    obtain ⟨hlat1, hlat2⟩ := abs_le.mp hlatb
    obtain ⟨hlon1, hlon2⟩ := abs_le.mp hlonb
    have hnewrect : newRectR ((c.lat : ℝ) - degOf r) ((c.lon : ℝ) - degOf r)
        (2 * degOf r) (2 * degOf r) =
        some ⟨(c.lat : ℝ) - degOf r, (c.lat : ℝ) - degOf r + 2 * degOf r,
          (c.lon : ℝ) - degOf r, (c.lon : ℝ) - degOf r + 2 * degOf r⟩ := by
      unfold newRectR
      rw [if_neg (by push_neg; constructor <;> linarith)]
    simp only [queryRadius]
    apply List.mem_flatMap.mpr
    refine ⟨i, ?_, ?_⟩
    · unfold getRelevantPartitionsR
      apply List.mem_filter.mpr
      refine ⟨by rw [hboundslen]; exact List.mem_range.mpr hiP, ?_⟩
      rw [hg.2.2.1, getD_map_range _ _ _ _ hiP, decide_eq_true_eq]
      have hb1 : ((partitionBound g.numCPU i).bottomLeft.lon : ℝ) ≤ (loc.lon : ℝ) := by
        exact_mod_cast hband1
      have hb2 : ((loc.lon : ℝ)) ≤ ((partitionBound g.numCPU i).topRight.lon : ℝ) := by
        exact_mod_cast hband2
      constructor
      · linarith
      · linarith
    · simp only [queryRadiusPartition]
      rw [hnewrect]
      apply List.mem_filterMap.mpr
      refine ⟨sp, ?_, ?_⟩
      · apply List.mem_filter.mpr
        refine ⟨hmem, ?_⟩
        rw [decide_eq_true_eq, hrect]
        unfold rectIntersectsR toRect tolerance
        constructor
        · show ((loc.lat - 1 / 100 : ℚ) : ℝ) ≤ (c.lat : ℝ) - degOf r + 2 * degOf r
          push_cast
          linarith
        constructor
        · show (c.lat : ℝ) - degOf r ≤ ((loc.lat + 1 / 100 : ℚ) : ℝ)
          push_cast
          linarith
        constructor
        · show ((loc.lon - 1 / 100 : ℚ) : ℝ) ≤ (c.lon : ℝ) - degOf r + 2 * degOf r
          push_cast
          linarith
        · show (c.lon : ℝ) - degOf r ≤ ((loc.lon + 1 / 100 : ℚ) : ℝ)
          push_cast
          linarith
      · simp only [hloc]
        rw [if_pos hdist]

/-- C2 witness: the soundness-and-completeness theorem applied to the
one-point example index with center `(0,0)` and radius `1` km. -/
theorem C2_witness :
    WellFormed gEx ∧ (C2Sound gEx ⟨0, 0⟩ 1 ∧ C2Complete gEx ⟨0, 0⟩ 1) := by
  have hwEx : WellFormed gEx := by
    apply wellFormed_indexPoints (wellFormed_new 1 1 (le_refl 1))
    intro p hp loc hloc
    rcases List.mem_singleton.mp hp with rfl
    rw [show originPoint.location = some ⟨0, 0⟩ from rfl] at hloc
    rcases Option.some_inj.mp hloc with rfl
    norm_num
  exact ⟨hwEx, C2_queryRadius_sound_complete gEx hwEx ⟨0, 0⟩ 1⟩

/-- C2 counterexample: with radius exactly `0`, the point stored exactly at
the center has Haversine distance `0 ≤ 0` and the claim requires it to be
returned ("including boundary points at distance exactly r", for every
`r ≥ 0`), but the pre-filter rectangle has zero side lengths, its
construction fails, the failure is swallowed, and `QueryRadius` returns the
empty list. -/
theorem C2_cex :
    (queryRadius gEx ⟨0, 0⟩ 0).1 = [] ∧
    (∃ sp ∈ storedSPs gEx, sp.point = originPoint) ∧
    originPoint.location = some ⟨0, 0⟩ ∧
    Distance 0 0 0 0 ≤ ((0 : ℚ) : ℝ) ∧
    (0 : ℚ) ≤ 0 := by
  refine ⟨?_, ⟨⟨originPoint, toRect ⟨0, 0⟩⟩, by rw [storedSPs_gEx]; simp, rfl⟩, rfl, ?_,
    le_refl 0⟩
  · simp only [queryRadius]
    rw [flatMap_eq_nil_of _ _
      (fun i _ => queryRadiusPartition_degenerate ⟨0, 0⟩ 0 _ (le_refl 0))]
  · rw [Distance_same]
    norm_num

theorem nnPass_perm (x : Cand) (l : List Cand) :
    ((nnPass x l).1 :: (nnPass x l).2).Perm (x :: l) := by
  classical
  induction l generalizing x with
  | nil => simp [nnPass]
  | cons y ys ih =>
      by_cases h : y.distance < x.distance
      · simp only [nnPass, if_pos h]
        exact (List.Perm.swap x _ _).trans ((ih y).cons x)
      · simp only [nnPass, if_neg h]
        exact ((List.Perm.swap y _ _).trans ((ih x).cons y)).trans (List.Perm.swap x y ys)

theorem nnPass_min (x : Cand) (l : List Cand) :
    (nnPass x l).1.distance ≤ x.distance ∧
      ∀ y ∈ (nnPass x l).2, (nnPass x l).1.distance ≤ y.distance := by
  classical
  induction l generalizing x with
  | nil => simp [nnPass]
  | cons y ys ih =>
      by_cases h : y.distance < x.distance
      · simp only [nnPass, if_pos h]
        obtain ⟨h1, h2⟩ := ih y
        refine ⟨le_trans h1 (le_of_lt h), ?_⟩
        intro z hz
        rcases List.mem_cons.mp hz with rfl | hz
        · exact le_trans h1 (le_of_lt h)
        · exact h2 z hz
      · simp only [nnPass, if_neg h]
        obtain ⟨h1, h2⟩ := ih x
        refine ⟨h1, ?_⟩
        intro z hz
        rcases List.mem_cons.mp hz with rfl | hz
        · exact le_trans h1 (not_lt.mp h)
        · exact h2 z hz

theorem selSort_perm_aux : ∀ (n : ℕ) (l : List Cand), l.length ≤ n → (selSort l).Perm l := by
  intro n
  induction n with
  | zero =>
      intro l hl
      rw [List.eq_nil_of_length_eq_zero (Nat.le_zero.mp hl)]
      simp [selSort]
  | succ n ih =>
      intro l hl
      cases l with
      | nil => simp [selSort]
      | cons x xs =>
          rw [selSort]
          have hlen : (nnPass x xs).2.length ≤ n := by
            rw [nnPass_length]
            simpa using hl
          exact ((ih _ hlen).cons _).trans (nnPass_perm x xs)

theorem selSort_perm (l : List Cand) : (selSort l).Perm l :=
  selSort_perm_aux l.length l (le_refl _)

theorem selSort_sorted_aux : ∀ (n : ℕ) (l : List Cand), l.length ≤ n →
    (selSort l).Sorted (fun a b : Cand => a.distance ≤ b.distance) := by
  intro n
  induction n with
  | zero =>
      intro l hl
      rw [List.eq_nil_of_length_eq_zero (Nat.le_zero.mp hl)]
      simp [selSort]
  | succ n ih =>
      intro l hl
      cases l with
      | nil => simp [selSort]
      | cons x xs =>
          rw [selSort, List.sorted_cons]
          have hlen : (nnPass x xs).2.length ≤ n := by
            rw [nnPass_length]
            simpa using hl
          refine ⟨?_, ih _ hlen⟩
          intro b hb
          have hb2 : b ∈ (nnPass x xs).2 := (selSort_perm_aux n _ hlen).mem_iff.mp hb
          exact (nnPass_min x xs).2 b hb2

theorem selSort_sorted (l : List Cand) :
    (selSort l).Sorted (fun a b : Cand => a.distance ≤ b.distance) :=
  selSort_sorted_aux l.length l (le_refl _)

theorem kNearest_length (tree : List SpatialPoint) (k : ℕ) (q : Location) :
    (kNearest tree k q).length = min k tree.length := by
  unfold kNearest
  rw [List.length_take, (List.perm_insertionSort _ tree).length_eq]

theorem knnCandidates_length (g : GeoIndex) (c : Location) (n : ℕ) :
    (knnCandidates g c n).length =
      ∑ i ∈ Finset.range g.numCPU, min (n * 2) (g.partitions.getD i []).length := by
  unfold knnCandidates
  rw [List.length_flatMap, sum_map_range]
  exact Finset.sum_congr rfl (fun i _ => by simp [kNearest_length])

theorem min_overfetch {n : ℕ} (hn : 1 ≤ n) (S : Finset ℕ) (f : ℕ → ℕ) :
    min n (∑ i ∈ S, min (n * 2) (f i)) = min n (∑ i ∈ S, f i) := by
  rcases le_or_lt n (∑ i ∈ S, min (n * 2) (f i)) with h | h
  · rw [min_eq_left h,
      min_eq_left (le_trans h (Finset.sum_le_sum (fun i _ => min_le_right _ _)))]
  · have hall : ∀ i ∈ S, min (n * 2) (f i) = f i := by
      intro i hi
      rcases le_or_lt (f i) (n * 2) with hfi | hfi
      · exact min_eq_right hfi
      · exfalso
        have hterm : n * 2 ≤ ∑ i ∈ S, min (n * 2) (f i) := by
          calc n * 2 = min (n * 2) (f i) := (min_eq_left (le_of_lt hfi)).symm
            _ ≤ ∑ i ∈ S, min (n * 2) (f i) :=
                @Finset.single_le_sum ℕ ℕ _ (fun j => min (n * 2) (f j)) S
                  (fun _ _ => Nat.zero_le _) i hi
        omega
    rw [Finset.sum_congr rfl hall]

theorem atan2_nonneg {y x : ℝ} (hy : 0 ≤ y) (hx : 0 ≤ x) : 0 ≤ atan2 y x := by
  unfold atan2
  rcases lt_or_eq_of_le hx with h | h
  · rw [if_pos h, ← Real.arctan_zero]
    exact Real.arctan_strictMono.monotone (div_nonneg hy (le_of_lt h))
  · rw [if_neg (by rw [← h]; exact lt_irrefl 0), if_pos h.symm]
    rcases lt_or_eq_of_le hy with hy' | hy'
    · rw [if_pos hy']
      have := Real.pi_pos
      linarith
    · rw [if_neg (by rw [← hy']; exact lt_irrefl 0), if_neg (by rw [← hy']; simp)]

theorem Distance_nonneg (lat1 lon1 lat2 lon2 : ℚ) : 0 ≤ Distance lat1 lon1 lat2 lon2 := by
  simp only [Distance]
  refine mul_nonneg (by norm_num [earthRadius]) (mul_nonneg (by norm_num) ?_)
  exact atan2_nonneg (Real.sqrt_nonneg _) (Real.sqrt_nonneg _)

theorem mem_knnCandidates_distance {g : GeoIndex} {c : Location} {n : ℕ} {cd : Cand}
    (h : cd ∈ knnCandidates g c n) :
    cd.distance = Distance c.lat c.lon (locD cd.point).lat (locD cd.point).lon := by
  unfold knnCandidates at h
  obtain ⟨i, -, hm⟩ := List.mem_flatMap.mp h
  obtain ⟨sp, -, rfl⟩ := List.mem_map.mp hm
  rfl

/-- C3 result-count law: `NearestNeighbors(c, n)` returns exactly
`min n totalIndexed` points. -/
def C3Count (g : GeoIndex) (c : Location) (n : ℕ) : Prop :=
  (nearestNeighbors g c n).length = min n (storedSPs g).length

/-- C3 ordering law: the returned points are sorted ascending by true
Haversine distance from the center. -/
def C3Sorted (g : GeoIndex) (c : Location) (n : ℕ) : Prop :=
  (nearestNeighbors g c n).Pairwise (fun p q : Point =>
    Distance c.lat c.lon (locD p).lat (locD p).lon ≤
      Distance c.lat c.lon (locD q).lat (locD q).lon)

/-- C3 zero-distance law, conditioned on candidacy: whenever some collected
per-partition candidate has distance `0`, the first returned point has
distance `0`.  (Unconditional zero-first fails — see the counterexample.) -/
def C3ZeroFirst (g : GeoIndex) (c : Location) (n : ℕ) : Prop :=
  (∃ cd ∈ knnCandidates g c n, cd.distance = 0) →
    ∃ p, (nearestNeighbors g c n).head? = some p ∧
      Distance c.lat c.lon (locD p).lat (locD p).lon = 0

theorem nearestNeighbors_eq_take (g : GeoIndex) (c : Location) (n : ℕ) :
    nearestNeighbors g c n =
      ((selSort (knnCandidates g c n)).take
        (if (knnCandidates g c n).length < n then (knnCandidates g c n).length else n)).map
          (fun cd => cd.point) := rfl

/-- C3 (amended): for every index, center, and `n ≥ 1`, `NearestNeighbors`
returns `min n totalIndexed` points sorted ascending by exact Haversine
distance (fewer than `n` existing means all are returned), and a
distance-0 point is returned first whenever it survives the per-partition
2× over-fetch.  The unconditional "a point exactly at `c` appears first"
fails when ≥ `2n` equally-near (by the primitive's rectangle metric) items
crowd it out of its partition's candidate list — see the counterexample. -/
theorem C3_nearestNeighbors_count_sorted (g : GeoIndex) (c : Location) (n : ℕ)
    (hn : 1 ≤ n) : C3Count g c n ∧ C3Sorted g c n ∧ C3ZeroFirst g c n := by
  have hperm := selSort_perm (knnCandidates g c n)
  have hsorted := selSort_sorted (knnCandidates g c n)
  have hlenss : (selSort (knnCandidates g c n)).length = (knnCandidates g c n).length :=
    hperm.length_eq
  refine ⟨?_, ?_, ?_⟩
  · rw [C3Count, nearestNeighbors_eq_take, List.length_map, List.length_take, hlenss,
      knnCandidates_length, length_storedSPs]
    have hkey := min_overfetch hn (Finset.range g.numCPU)
      (fun i => (g.partitions.getD i []).length)
    rcases lt_or_ge (∑ i ∈ Finset.range g.numCPU, min (n * 2)
        (g.partitions.getD i []).length) n with h | h
    · rw [if_pos h]
      omega
    · rw [if_neg (not_lt.mpr h)]
      omega
  · rw [C3Sorted, nearestNeighbors_eq_take]
    apply List.pairwise_map.mpr
    have htake : ((selSort (knnCandidates g c n)).take
        (if (knnCandidates g c n).length < n
          then (knnCandidates g c n).length else n)).Pairwise
        (fun a b : Cand => a.distance ≤ b.distance) :=
      List.Pairwise.sublist (List.take_sublist _ _) hsorted
    apply List.Pairwise.imp_of_mem ?_ htake
    intro a b ha hb hab
    have ha2 : a ∈ knnCandidates g c n :=
      hperm.mem_iff.mp ((List.take_sublist _ _).subset ha)
    have hb2 : b ∈ knnCandidates g c n :=
      hperm.mem_iff.mp ((List.take_sublist _ _).subset hb)
    rw [← mem_knnCandidates_distance ha2, ← mem_knnCandidates_distance hb2]
    exact hab
  · rw [C3ZeroFirst]
    rintro ⟨cd, hcd, hcd0⟩
    have hL : 1 ≤ (knnCandidates g c n).length :=
      List.length_pos.mpr (List.ne_nil_of_mem hcd)
    rcases hsel : selSort (knnCandidates g c n) with _ | ⟨c0, rest⟩
    · rw [hsel] at hlenss
      simp at hlenss
      omega
    · have hc0mem : c0 ∈ knnCandidates g c n := by
        apply hperm.mem_iff.mp
        rw [hsel]
        exact List.mem_cons_self c0 rest
      have hc0le : c0.distance ≤ cd.distance := by
        have hcdsel : cd ∈ selSort (knnCandidates g c n) := hperm.mem_iff.mpr hcd
        rw [hsel] at hcdsel
        rcases List.mem_cons.mp hcdsel with rfl | hcdrest
        · exact le_refl _
        · have := hsorted
          rw [hsel, List.sorted_cons] at this
          exact this.1 cd hcdrest
      have hc0ge : 0 ≤ c0.distance := by
        rw [mem_knnCandidates_distance hc0mem]
        exact Distance_nonneg _ _ _ _
      have hc00 : c0.distance = 0 := le_antisymm (hcd0 ▸ hc0le) hc0ge
      have hrc : 0 < (if (knnCandidates g c n).length < n
          then (knnCandidates g c n).length else n) := by
        split_ifs <;> omega
      obtain ⟨m, hm⟩ := Nat.exists_eq_succ_of_ne_zero (Nat.pos_iff_ne_zero.mp hrc)
      refine ⟨c0.point, ?_, ?_⟩
      · rw [nearestNeighbors_eq_take, hsel, hm, List.take_succ_cons, List.map_cons]
        rfl
      · rw [← mem_knnCandidates_distance hc0mem]
        exact hc00

theorem atan2_sqrt_pos {a : ℝ} (h0 : 0 < a) (h1 : a < 1) :
    0 < atan2 (Real.sqrt a) (Real.sqrt (1 - a)) := by
  have hx : 0 < Real.sqrt (1 - a) := Real.sqrt_pos.mpr (by linarith)
  have hy : 0 < Real.sqrt a := Real.sqrt_pos.mpr h0
  unfold atan2
  rw [if_pos hx, ← Real.arctan_zero]
  exact Real.arctan_strictMono (by positivity)

theorem dist_lon_sym : Distance 0 0 0 (-1/1000) = Distance 0 0 0 (1/1000) := by
  simp only [Distance, earthRadius]
  norm_num
  rw [show (-(1/1000 * Real.pi) / 180 / 2 : ℝ) = -(1/1000 * Real.pi / 180 / 2) by ring,
    Real.sin_neg, neg_mul_neg]

theorem sin_small : 0 < Real.sin (1/1000 * Real.pi / 180 / 2) ∧
    Real.sin (1/1000 * Real.pi / 180 / 2) < 1 := by
  have hpos : (0:ℝ) < 1/1000 * Real.pi / 180 / 2 := by positivity
  have hlt : (1/1000 * Real.pi / 180 / 2 : ℝ) < Real.pi := by
    nlinarith [Real.pi_pos]
  constructor
  · exact Real.sin_pos_of_pos_of_lt_pi hpos hlt
  · have h1 := Real.sin_lt hpos
    have h2 : (1/1000 * Real.pi / 180 / 2 : ℝ) < 1 := by
      nlinarith [Real.pi_le_four]
    linarith

theorem dist_small_pos : 0 < Distance 0 0 0 (1/1000) := by
  simp only [Distance, earthRadius]
  norm_num
  obtain ⟨hs0, hs1⟩ := sin_small
  have ha0 : (0:ℝ) < Real.sin (1/1000 * Real.pi / 180 / 2) *
      Real.sin (1/1000 * Real.pi / 180 / 2) := mul_pos hs0 hs0
  have ha1 : Real.sin (1/1000 * Real.pi / 180 / 2) *
      Real.sin (1/1000 * Real.pi / 180 / 2) < 1 := by nlinarith
  have := atan2_sqrt_pos ha0 ha1
  positivity

/-- The first tie point of the C3 counterexample: a thousandth of a degree
east of the origin. -/
def pA : Point := ⟨"a", some ⟨0, 1/1000⟩⟩

/-- The second tie point: a thousandth of a degree west of the origin. -/
def pB : Point := ⟨"b", some ⟨0, -1/1000⟩⟩

/-- The crowded-out point: exactly at the origin. -/
def pC : Point := ⟨"c", some ⟨0, 0⟩⟩

/-- The tie index of the C3 counterexample: one partition holding, in
insertion order, `pA`, `pB`, and then `pC`. -/
def gTie : GeoIndex := indexPoints (newGeoIndexWithWorkers 1 1) [pA, pB, pC]

theorem assignIdx_one {lon : ℚ} (h : -180 ≤ lon) : assignIdx 1 lon = 0 := by
  rw [assignIdx_eq (le_refl 1) h]
  exact Nat.min_zero _

theorem gTie_numCPU : gTie.numCPU = 1 := by
  show (indexPoints (newGeoIndexWithWorkers 1 1) [pA, pB, pC]).numCPU = 1
  rw [indexPoints, if_neg (by simp)]
  rfl

theorem storedSPs_gTie :
    storedSPs gTie = [⟨pA, toRect ⟨0, 1/1000⟩⟩, ⟨pB, toRect ⟨0, -1/1000⟩⟩,
      ⟨pC, toRect ⟨0, 0⟩⟩] := by
  show storedSPs (indexPoints (newGeoIndexWithWorkers 1 1) [pA, pB, pC]) = _
  rw [storedSPs_indexPoints]
  show List.flatMap (List.range 1) _ = _
  rw [show List.range 1 = [0] from rfl]
  rw [List.flatMap_cons, List.flatMap_nil, List.append_nil,
    show (newGeoIndexWithWorkers 1 1).partitions = List.replicate 1 [] from rfl,
    getD_replicate_nil, List.nil_append]
  unfold bucketOf
  rw [List.filterMap_cons, List.filterMap_cons, List.filterMap_cons]
  simp only [show (newGeoIndexWithWorkers 1 1).numCPU = 1 from rfl,
    show pA.location = some ⟨0, 1/1000⟩ from rfl,
    show pB.location = some ⟨0, -1/1000⟩ from rfl,
    show pC.location = some ⟨0, 0⟩ from rfl,
    assignIdx_one (show (-180 : ℚ) ≤ 1/1000 by norm_num),
    assignIdx_one (show (-180 : ℚ) ≤ -1/1000 by norm_num),
    assignIdx_one (show (-180 : ℚ) ≤ 0 by norm_num)]
  simp

theorem getD_gTie : gTie.partitions.getD 0 [] =
    [⟨pA, toRect ⟨0, 1/1000⟩⟩, ⟨pB, toRect ⟨0, -1/1000⟩⟩, ⟨pC, toRect ⟨0, 0⟩⟩] := by
  have h := storedSPs_gTie
  unfold storedSPs at h
  rw [gTie_numCPU, show List.range 1 = [0] from rfl, List.flatMap_cons, List.flatMap_nil,
    List.append_nil] at h
  exact h

theorem minDistSq_eq_zero {q : Location} {r : Rect}
    (ha : r.latMin ≤ q.lat) (hb : q.lat ≤ r.latMax)
    (hc : r.lonMin ≤ q.lon) (hd : q.lon ≤ r.lonMax) :
    minDistSq q r = 0 := by
  unfold minDistSq
  rw [max_eq_left (max_le (by linarith) (by linarith)),
    max_eq_left (max_le (by linarith) (by linarith))]
  norm_num

theorem kNearest_gTie :
    kNearest (gTie.partitions.getD 0 []) 2 ⟨0, 0⟩ =
      [⟨pA, toRect ⟨0, 1/1000⟩⟩, ⟨pB, toRect ⟨0, -1/1000⟩⟩] := by
  rw [getD_gTie]
  unfold kNearest
  have mA : minDistSq ⟨0, 0⟩ (toRect ⟨0, 1/1000⟩) = 0 :=
    minDistSq_eq_zero (by norm_num [toRect, tolerance]) (by norm_num [toRect, tolerance])
      (by norm_num [toRect, tolerance]) (by norm_num [toRect, tolerance])
  have mB : minDistSq ⟨0, 0⟩ (toRect ⟨0, -1/1000⟩) = 0 :=
    minDistSq_eq_zero (by norm_num [toRect, tolerance]) (by norm_num [toRect, tolerance])
      (by norm_num [toRect, tolerance]) (by norm_num [toRect, tolerance])
  have mC : minDistSq ⟨0, 0⟩ (toRect ⟨0, 0⟩) = 0 :=
    minDistSq_eq_zero (by norm_num [toRect, tolerance]) (by norm_num [toRect, tolerance])
      (by norm_num [toRect, tolerance]) (by norm_num [toRect, tolerance])
  have hs : ([⟨pA, toRect ⟨0, 1/1000⟩⟩, ⟨pB, toRect ⟨0, -1/1000⟩⟩,
      ⟨pC, toRect ⟨0, 0⟩⟩] : List SpatialPoint).Sorted
      (fun a b => minDistSq ⟨0, 0⟩ a.rect ≤ minDistSq ⟨0, 0⟩ b.rect) := by
    rw [List.sorted_cons, List.sorted_cons]
    refine ⟨?_, ?_, List.sorted_singleton _⟩
    · intro b hb
      rcases List.mem_cons.mp hb with rfl | hb
      · exact le_of_eq (mA.trans mB.symm)
      · rcases List.mem_singleton.mp hb with rfl
        exact le_of_eq (mA.trans mC.symm)
    · intro b hb
      rcases List.mem_singleton.mp hb with rfl
      exact le_of_eq (mB.trans mC.symm)
  rw [List.Sorted.insertionSort_eq hs]
  rfl

theorem knnCandidates_gTie :
    knnCandidates gTie ⟨0, 0⟩ 1 =
      [⟨pA, Distance 0 0 0 (1/1000)⟩, ⟨pB, Distance 0 0 0 (-1/1000)⟩] := by
  unfold knnCandidates
  rw [gTie_numCPU, show List.range 1 = [0] from rfl, List.flatMap_cons, List.flatMap_nil,
    List.append_nil, show (1 * 2 : ℕ) = 2 from rfl, kNearest_gTie]
  rfl

theorem nnPass_tie : nnPass (⟨pA, Distance 0 0 0 (1/1000)⟩ : Cand)
    [⟨pB, Distance 0 0 0 (-1/1000)⟩] =
    (⟨pA, Distance 0 0 0 (1/1000)⟩, [⟨pB, Distance 0 0 0 (-1/1000)⟩]) := by
  have hlt : ¬ ((⟨pB, Distance 0 0 0 (-1/1000)⟩ : Cand).distance <
      (⟨pA, Distance 0 0 0 (1/1000)⟩ : Cand).distance) := by
    show ¬ (Distance 0 0 0 (-1/1000) < Distance 0 0 0 (1/1000))
    rw [dist_lon_sym]
    exact lt_irrefl _
  simp only [nnPass, if_neg hlt]

theorem selSort_tie :
    selSort [(⟨pA, Distance 0 0 0 (1/1000)⟩ : Cand), ⟨pB, Distance 0 0 0 (-1/1000)⟩] =
      [(⟨pA, Distance 0 0 0 (1/1000)⟩ : Cand), ⟨pB, Distance 0 0 0 (-1/1000)⟩] := by
  rw [selSort, nnPass_tie]
  rw [selSort]
  simp [nnPass, selSort]

theorem nearestNeighbors_gTie : nearestNeighbors gTie ⟨0, 0⟩ 1 = [pA] := by
  rw [nearestNeighbors_eq_take, knnCandidates_gTie, selSort_tie]
  norm_num

/-- C3 counterexample: in the one-partition tie index, `pC` sits exactly at
the query center (true Haversine distance `0`), but the two points `pA` and
`pB` tie with it at rectangle-metric distance `0` (their `±tolerance`
rectangles contain the center) and precede it in insertion order, so the
partition's `n*2 = 2` over-fetch drops `pC`; `NearestNeighbors` returns
`[pA]`, whose distance from the center is strictly positive — the claimed
unconditional "a point exactly at the center is returned first" fails. -/
theorem C3_cex :
    nearestNeighbors gTie ⟨0, 0⟩ 1 = [pA] ∧
    (∃ sp ∈ storedSPs gTie, sp.point = pC) ∧
    pC.location = some ⟨0, 0⟩ ∧
    Distance 0 0 0 0 = 0 ∧
    Distance 0 0 (locD pA).lat (locD pA).lon ≠ 0 := by
  refine ⟨nearestNeighbors_gTie, ⟨⟨pC, toRect ⟨0, 0⟩⟩, by rw [storedSPs_gTie]; simp, rfl⟩,
    rfl, Distance_same 0 0, ?_⟩
  show Distance 0 0 0 (1/1000) ≠ 0
  exact ne_of_gt dist_small_pos

/-- C3 witness: the amended count/order/zero-first theorem applied to the
one-point example index, the origin center, and `n = 1`. -/
theorem C3_witness :
    (1 : ℕ) ≤ 1 ∧ (C3Count gEx ⟨0, 0⟩ 1 ∧ C3Sorted gEx ⟨0, 0⟩ 1 ∧ C3ZeroFirst gEx ⟨0, 0⟩ 1) :=
  ⟨le_refl 1, C3_nearestNeighbors_count_sorted gEx ⟨0, 0⟩ 1 (le_refl 1)⟩
